import Mathlib

/-!
# Verification of the transitive path operator (QLever fragment)

A shallow embedding of the transitive-path operator of the repository:

* `src/src/engine/TransitivePathFallback.cpp` — the HashMap back-end,
* `src/src/engine/TransitivePathBinSearch.cpp` — the BinSearch back-end,
* `src/src/engine/TransitivePath.cpp` — the operator facade
  (direction choice, result materializer, side rebinding).

Node ids (`Id`, opaque 64-bit values in the source) are embedded as `Nat`;
the core only uses equality and hashing of ids, so this is faithful.
Column-oriented `IdTable`s are embedded as row lists `List (List Nat)`,
a cell read `table(i, c)` being `(row i).getD c 0`.

The C++ back-ends keep edges in unordered hash containers whose iteration
order is unspecified; the embedding fixes the deterministic refinement
"first-insertion order" for them (`Map` below is an association list in key
insertion order whose values are target lists in insertion order, without
duplicates — exactly the membership structure of
`unordered_map<Id, unordered_set<Id>>`).
-/

/-- A cell of a row, `row.getD c 0`: column `c` of the row, defaulting to `0`
(the embedded value of a default-constructed `Id`). -/
def cell (r : List Nat) (i : Nat) : Nat := r.getD i 0

/-- `table.getColumn i` of an `IdTable`, as the list of the rows' `i`-th cells. -/
def column (tbl : List (List Nat)) (i : Nat) : List Nat := tbl.map (fun r => cell r i)

/-- Write value `v` into column `i` of a row (random-access cell write of the
mutable output table). -/
def setCell (r : List Nat) (i v : Nat) : List Nat := r.set i v

/-- A freshly `emplace_back`ed row of width `w` (cells default-initialized). -/
def emptyRow (w : Nat) : List Nat := List.replicate w 0

/-- The `Map` type of `TransitivePathBase` / `TransitivePath`:
`unordered_map<Id, Set>` with `Set = unordered_set<Id>`, embedded as an
association list in key-insertion order with insertion-ordered duplicate-free
value lists. -/
abbrev Map := List (Nat × List Nat)

/-- `edges.find(k)`: the set stored under key `k`, if present. -/
def lookupMap : Map → Nat → Option (List Nat)
  | [], _ => none
  | (k', vs) :: m, k => if k' = k then some vs else lookupMap m k

/-- `map.contains(k)`. -/
def containsKey (m : Map) (k : Nat) : Bool := (lookupMap m k).isSome

/-- The set stored under `k`, or the empty set. -/
def hullSetOf (m : Map) (k : Nat) : List Nat := (lookupMap m k).getD []

/-- The keys of the map, in insertion order. -/
def keysOf (m : Map) : List Nat := m.map (fun kv => kv.1)

/-- `TransitivePathBase::insertIntoMap(map, node, target)` — i.e.
`map[node].insert(target)` (see also `TransitivePath::setupEdgesMap`):
inserts `v` into the set stored under `k`, creating the entry if needed. -/
def insertIntoMap : Map → Nat → Nat → Map
  | [], k, v => [(k, [v])]
  | (k', vs) :: m, k, v =>
    if k' = k then (k', if v ∈ vs then vs else vs ++ [v]) :: m
    else (k', vs) :: insertIntoMap m k v

/-- `!target.has_value() || node == target.value()` — the optional
fixed-target filter of `transitiveHull`. -/
def targetOk (target : Option Nat) (t : Nat) : Bool :=
  match target with
  | none => true
  | some x => decide (t = x)

/-- State of one depth-first search: the per-start `marks` visited set and the
`hull` map accumulated across starts. -/
structure SearchState where
  marks : List Nat
  hull : Map
  deriving Repr, DecidableEq

section DFS

variable (succ : Nat → List Nat) (minD maxD : Nat) (target : Option Nat) (start : Nat)

/-- The depth-first child-processing loop shared by
`TransitivePathFallback::transitiveHull` (iterator stack over hash sets,
lines 161–215) and `TransitivePathBinSearch::transitiveHull`
(`(node, steps)` stack, lines 154–187), rendered recursively: `cs` are the
pending children of the current level in processing order, `depth` their
depth.  A child `c` is processed iff `depth ≤ maxDist` and it is unmarked;
when `minDist ≤ depth` it is then marked and, if it passes the target filter,
inserted into `hull[start]`; afterwards the search descends into `succ c`
at `depth + 1` and then continues with the remaining children.
The two back-ends instantiate `succ`, the initial `cs` and the initial
`depth` differently (see `TransitivePathFallback.transitiveHull` and
`TransitivePathBinSearch.transitiveHull` below); theorems `loopF_go` and
`loopB_go` relate this recursion to literal transcriptions of the two
stack machines. -/
def dfsGo : List Nat → Nat → SearchState → SearchState
  | [], _, st => st
  | c :: cs, depth, st =>
    if h : depth ≤ maxD ∧ c ∉ st.marks then
      let st1 : SearchState :=
        if minD ≤ depth then
          { marks := c :: st.marks,
            hull := if targetOk target c then insertIntoMap st.hull start c else st.hull }
        else st
      dfsGo cs depth (dfsGo (succ c) (depth + 1) st1)
    else dfsGo cs depth st
  termination_by cs depth _ => (maxD + 1 - depth, cs.length)
  decreasing_by
  · exact Prod.Lex.left _ _ (by omega)
  · exact Prod.Lex.right _ (by simp)
  · exact Prod.Lex.right _ (by simp)

end DFS

namespace TransitivePathFallback

/-- `TransitivePathFallback::setupEdgesMap` (lines 263–277): iterate the two
designated columns of the edge sub-result in lockstep, inserting
`targetCol[i]` into `edges[startCol[i]]`. -/
def setupEdgesMap (sub : List (List Nat)) (startCol targetCol : Nat) : Map :=
  (List.zip (column sub startCol) (column sub targetCol)).foldl
    (fun m p => insertIntoMap m p.1 p.2) []

/-- `successors` of the HashMap back-end: the set `edges[n]`, in the
embedding's insertion order (the C++ hash-set iteration order is
unspecified). -/
def successors (edges : Map) (n : Nat) : List Nat := (lookupMap edges n).getD []

/-- `TransitivePathFallback::transitiveHull` (lines 142–217).  For every
start node: skip if the hull already has the node as a key; otherwise clear
the marks, pre-insert the reflexive pair when `minDist == 0` (subject to the
target filter), and run the depth-first search over the root's successors at
depth 1. -/
def transitiveHull (edges : Map) (minD maxD : Nat) (startNodes : List Nat)
    (target : Option Nat) : Map :=
  startNodes.foldl
    (fun hull s =>
      if containsKey hull s then hull
      else
        let hull0 := if minD = 0 ∧ targetOk target s then insertIntoMap hull s s else hull
        (dfsGo (successors edges) minD maxD target s (successors edges s) 1
          ⟨[], hull0⟩).hull)
    []

end TransitivePathFallback

/-- Lexicographic row order `(source, target)` that
`QueryExecutionTree::createSortedTree` establishes on the edge sub-result of
the BinSearch back-end. -/
def pairLe (p q : Nat × Nat) : Bool := decide (p.1 < q.1 ∨ (p.1 = q.1 ∧ p.2 ≤ q.2))

namespace TransitivePathBinSearch

/-- `TransitivePathBinSearch::setupEdgesMap` (lines 235–245) together with the
sort enforced in the constructor: the pairs of the two designated columns,
sorted lexicographically. -/
def sortedEdgeList (sub : List (List Nat)) (startCol targetCol : Nat) : List (Nat × Nat) :=
  (List.zip (column sub startCol) (column sub targetCol)).mergeSort pairLe

/-- `BinSearchMap::successors(n)`: the contiguous slice of targets whose
source equals `n` (located by binary search in the source; here the filter
over the sorted pair list, which is the same subsequence).  Unlike the
HashMap back-end this keeps duplicates of the sorted input. -/
def successors (edges : List (Nat × Nat)) (n : Nat) : List Nat :=
  (edges.filter (fun p => p.1 = n)).map (fun p => p.2)

/-- `TransitivePathBinSearch::transitiveHull` (lines 145–189).  The explicit
`(node, steps)` stack pops children in reverse push order, so the recursion
descends into `(successors n).reverse`; the start node itself is pushed at
depth 0. -/
def transitiveHull (edges : List (Nat × Nat)) (minD maxD : Nat) (startNodes : List Nat)
    (target : Option Nat) : Map :=
  startNodes.foldl
    (fun hull s =>
      if containsKey hull s then hull
      else
        let hull0 := if minD = 0 ∧ targetOk target s then insertIntoMap hull s s else hull
        (dfsGo (fun n => (successors edges n).reverse) minD maxD target s [s] 0
          ⟨[], hull0⟩).hull)
    []

end TransitivePathBinSearch

/-- The value of one endpoint of the path: an unbound SPARQL variable
(variables are embedded as numeric tags) or a fixed node id. -/
inductive SideValue where
  | var (v : Nat)
  | id (x : Nat)
  deriving Repr, DecidableEq

/-- A feeding sub-plan (`QueryExecutionTree`), reduced to the interface the
operator consumes: its materialized result rows, its variable→column map and
the column sequence its result is sorted on. -/
structure QueryExecutionTree where
  rows : List (List Nat)
  varCols : List (Nat × Nat)
  sortedOn : List Nat
  deriving Repr, DecidableEq

/-- Modelled from the spec: `QueryExecutionTree::createSortedTree` is not part
of the repository fragment (§6 lists `createSortedVariant(cols)` among the
sub-plan interfaces; §4.5 says rebinding "enforces the feeder to be sorted on
`col`").  It returns the sub-plan itself when it is already sorted on `cols`,
and otherwise the sort-enforcing variant of it. -/
def createSortedTree (t : QueryExecutionTree) (cols : List Nat) : QueryExecutionTree :=
  if t.sortedOn = cols then t
  else { rows := t.rows.mergeSort (fun r r' => decide (cell r (cols.headD 0) ≤ cell r' (cols.headD 0)))
         varCols := t.varCols
         sortedOn := cols }

/-- `TransitivePathSide` (TransitivePath.h): the bound sub-plan and join
column (if any), the column of this side in the edge sub-result, the
variable-or-id value, and the output column. -/
structure TransitivePathSide where
  treeAndCol : Option (QueryExecutionTree × Nat)
  subCol : Nat
  value : SideValue
  outputCol : Nat
  deriving Repr, DecidableEq

/-- `TransitivePathSide::isVariable()`. -/
def TransitivePathSide.isVariable (s : TransitivePathSide) : Bool :=
  match s.value with
  | .var _ => true
  | .id _ => false

/-- `TransitivePathSide::isBoundVariable()`. -/
def TransitivePathSide.isBoundVariable (s : TransitivePathSide) : Bool :=
  s.treeAndCol.isSome

/-- The operator state (`TransitivePath` members): edge sub-plan, the two
sides, result width, length window and variable→column map. -/
structure TransitivePath where
  subtree : QueryExecutionTree
  lhs : TransitivePathSide
  rhs : TransitivePathSide
  minDist : Nat
  maxDist : Nat
  resultWidth : Nat
  variableColumns : List (Nat × Nat)
  deriving Repr, DecidableEq

/-- The `TransitivePath` constructor (TransitivePath.cpp lines 15–38): stores
the child and the sides, sets `resultWidth = 2`, maps a variable on the left
side to output column 0 and one on the right side to output column 1, and
assigns `outputCol 0` to the left and `1` to the right side. -/
def mkTransitivePath (child : QueryExecutionTree) (leftSide rightSide : TransitivePathSide)
    (minDist maxDist : Nat) : TransitivePath :=
  let vc0 : List (Nat × Nat) :=
    match leftSide.value with
    | .var v => [(v, 0)]
    | .id _ => []
  let vc1 : List (Nat × Nat) :=
    match rightSide.value with
    | .var v => vc0 ++ [(v, 1)]
    | .id _ => vc0
  { subtree := child
    lhs := { leftSide with outputCol := 0 }
    rhs := { rightSide with outputCol := 1 }
    minDist := minDist
    maxDist := maxDist
    resultWidth := 2
    variableColumns := vc1 }

/-- The direction choice of the operator (`TransitivePath::computeResult`,
TransitivePath.cpp lines 251–266; `decideDirection()` of the two back-ends
implements the same dispatch): a bound left side becomes the start side;
otherwise a bound right side; otherwise a right side that is a fixed id;
otherwise the left side. -/
def decideDirection (op : TransitivePath) : TransitivePathSide × TransitivePathSide :=
  if op.lhs.isBoundVariable then (op.lhs, op.rhs)
  else if op.rhs.isBoundVariable then (op.rhs, op.lhs)
  else if ¬ op.rhs.isVariable then (op.rhs, op.lhs)
  else (op.lhs, op.rhs)

/-- `TransitivePath::isBound()` (TransitivePath.cpp lines 326–328). -/
def TransitivePath.isBound (op : TransitivePath) : Bool :=
  op.lhs.isBoundVariable || op.rhs.isBoundVariable

/-- Modelled from the spec: `isBoundOrId()` is declared in TransitivePath.h
(line 137) but defined in `TransitivePathBase.cpp`, which is not part of the
repository fragment.  Per the spec's error table (§7), the empty-path guard
fires exactly when both sides are `Free` and neither is bound, so
`isBoundOrId` holds when a side is bound or a side is a fixed id. -/
def TransitivePath.isBoundOrId (op : TransitivePath) : Bool :=
  op.lhs.isBoundVariable || op.rhs.isBoundVariable ||
    !op.lhs.isVariable || !op.rhs.isVariable

namespace TransitivePath

/-- `TransitivePath::copyColumns` (TransitivePath.cpp lines 531–548): copy the
cells of `input` into `output` from column 2 onwards, in source order,
skipping input column `skipCol`, while both column cursors are in range. -/
def copyColumnsGo (input : List Nat) (skipCol : Nat) (inCol outCol : Nat)
    (output : List Nat) : List Nat :=
  if h : inCol < input.length ∧ outCol < output.length then
    if inCol = skipCol then copyColumnsGo input skipCol (inCol + 1) outCol output
    else copyColumnsGo input skipCol (inCol + 1) (outCol + 1)
      (setCell output outCol (cell input inCol))
  else output
  termination_by input.length - inCol
  decreasing_by
  · omega
  · omega

/-- `TransitivePath::copyColumns`, entered at `inCol = 0`, `outCol = 2`. -/
def copyColumns (input output : List Nat) (skipCol : Nat) : List Nat :=
  copyColumnsGo input skipCol 0 2 output

/-- The bound variant of `TransitivePath::fillTableWithHull`
(TransitivePath.cpp lines 407–436): walk the start nodes (the join column of
the bound-side sub-result) together with the bound-side rows; for each node
present in the hull emit one row per hull target, the node at
`startSideCol`, the target at `targetSideCol`, and the bound-side row's
other columns copied from column 2 onwards. -/
def fillTableWithHullBound (hull : Map) (nodes : List Nat)
    (startSideCol targetSideCol : Nat) (startSideTable : List (List Nat))
    (skipCol w : Nat) : List (List Nat) :=
  match nodes, startSideTable with
  | node :: nodes', srow :: srows' =>
    (match lookupMap hull node with
     | none => []
     | some ts => ts.map (fun t =>
         copyColumns srow
           (setCell (setCell (emptyRow w) startSideCol node) targetSideCol t) skipCol))
    ++ fillTableWithHullBound hull nodes' startSideCol targetSideCol srows' skipCol w
  | _, _ => []

/-- The unbound variant of `TransitivePath::fillTableWithHull`
(TransitivePath.cpp lines 439–453): one row per hull entry, iterating the
hull map in order. -/
def fillTableWithHull (hull : Map) (startSideCol targetSideCol w : Nat) : List (List Nat) :=
  hull.flatMap (fun kv => kv.2.map (fun t =>
    setCell (setCell (emptyRow w) startSideCol kv.1) targetSideCol t))

end TransitivePath

/-- The error surfaced by `computeResult` (`AD_THROW`): the
unsupported-empty-path rejection. -/
inductive TPError where
  | unsupportedEmptyPath
  deriving Repr, DecidableEq

/-- The start-node selection of `setupMapAndNodes` without a bound side
(TransitivePathFallback.cpp lines 238–260, TransitivePathBinSearch.cpp lines
210–232): a fixed start side contributes its id; a variable start side
contributes the whole start column of the edge sub-result, plus the whole
target column when `minDist == 0`. -/
def unboundStartNodes (sub : List (List Nat)) (startSide targetSide : TransitivePathSide)
    (minDist : Nat) : List Nat :=
  match startSide.value with
  | .id x => [x]
  | .var _ =>
    column sub startSide.subCol ++
      (if minDist = 0 then column sub targetSide.subCol else [])

/-- The optional fixed-target filter passed to `transitiveHull`: the target
side's id when it is not a variable (`computeTransitivePath[Bound]`). -/
def targetFilter (targetSide : TransitivePathSide) : Option Nat :=
  match targetSide.value with
  | .var _ => none
  | .id x => some x

namespace TransitivePathFallback

/-- `TransitivePathFallback::computeResult` (lines 101–139) together with
`computeTransitivePath[Bound]` and `setupMapAndNodes`: reject the empty-path
case; decide the direction; build the HashMap edge map; compute the hull
(with the fixed-target filter when the target side is an id); and fill the
output table with the bound or the unbound materializer. -/
def computeResult (op : TransitivePath) : Except TPError (List (List Nat)) :=
  if op.minDist = 0 ∧ ¬ op.isBoundOrId ∧ op.lhs.isVariable ∧ op.rhs.isVariable then
    .error .unsupportedEmptyPath
  else
    let sd := decideDirection op
    let startSide := sd.1
    let targetSide := sd.2
    let sub := op.subtree.rows
    let edges := setupEdgesMap sub startSide.subCol targetSide.subCol
    let target := targetFilter targetSide
    match startSide.treeAndCol with
    | some (tree, col) =>
      let nodes := column tree.rows col
      let hull := transitiveHull edges op.minDist op.maxDist nodes target
      .ok (TransitivePath.fillTableWithHullBound hull nodes startSide.outputCol
        targetSide.outputCol tree.rows col op.resultWidth)
    | none =>
      let nodes := unboundStartNodes sub startSide targetSide op.minDist
      let hull := transitiveHull edges op.minDist op.maxDist nodes target
      .ok (TransitivePath.fillTableWithHull hull startSide.outputCol
        targetSide.outputCol op.resultWidth)

end TransitivePathFallback

namespace TransitivePathBinSearch

/-- `TransitivePathBinSearch::computeResult` (lines 104–142): as the fallback
back-end, but over the sorted edge list with binary-search successor lookup
(the constructor, lines 18–26, enforces the `(startCol, targetCol)` sort
order on the edge sub-result). -/
def computeResult (op : TransitivePath) : Except TPError (List (List Nat)) :=
  if op.minDist = 0 ∧ ¬ op.isBoundOrId ∧ op.lhs.isVariable ∧ op.rhs.isVariable then
    .error .unsupportedEmptyPath
  else
    let sd := decideDirection op
    let startSide := sd.1
    let targetSide := sd.2
    let sub := op.subtree.rows
    let edges := sortedEdgeList sub startSide.subCol targetSide.subCol
    let target := targetFilter targetSide
    match startSide.treeAndCol with
    | some (tree, col) =>
      let nodes := column tree.rows col
      let hull := transitiveHull edges op.minDist op.maxDist nodes target
      .ok (TransitivePath.fillTableWithHullBound hull nodes startSide.outputCol
        targetSide.outputCol tree.rows col op.resultWidth)
    | none =>
      let nodes := unboundStartNodes sub startSide targetSide op.minDist
      let hull := transitiveHull edges op.minDist op.maxDist nodes target
      .ok (TransitivePath.fillTableWithHull hull startSide.outputCol
        targetSide.outputCol op.resultWidth)

end TransitivePathBinSearch

/-- Literal transcription of the fallback DFS stack machine
(TransitivePathFallback.cpp lines 161–215), with fuel.  The stack holds the
remaining contents of the successor-set iterators (`positions`/`edgeCache`),
head = top; an exhausted iterator is popped; a drawn child's depth is the
stack size at draw time; the child's successor set is pushed only when
`edges.find(child)` succeeds.  Returns `none` when the fuel runs out. -/
def loopF (edges : Map) (minD maxD : Nat) (target : Option Nat) (start : Nat) :
    Nat → List (List Nat) → SearchState → Option SearchState
  | _, [], st => some st
  | 0, _ :: _, _ => none
  | fuel + 1, [] :: rest, st => loopF edges minD maxD target start fuel rest st
  | fuel + 1, (c :: cs) :: rest, st =>
    if (rest.length + 1) ≤ maxD ∧ c ∉ st.marks then
      let st1 : SearchState :=
        if minD ≤ rest.length + 1 then
          { marks := c :: st.marks,
            hull := if targetOk target c then insertIntoMap st.hull start c else st.hull }
        else st
      match lookupMap edges c with
      | some vs => loopF edges minD maxD target start fuel (vs :: cs :: rest) st1
      | none => loopF edges minD maxD target start fuel (cs :: rest) st1
    else loopF edges minD maxD target start fuel (cs :: rest) st

/-- Literal transcription of the BinSearch DFS stack machine
(TransitivePathBinSearch.cpp lines 151–186), with fuel.  The stack holds
`(node, steps)` pairs, head = top; pushing the successors of `node` in
order and then popping from the top yields them in reverse order, hence the
`reverse` on the pushed block.  Returns `none` when the fuel runs out. -/
def loopB (succ : Nat → List Nat) (minD maxD : Nat) (target : Option Nat) (start : Nat) :
    Nat → List (Nat × Nat) → SearchState → Option SearchState
  | _, [], st => some st
  | 0, _ :: _, _ => none
  | fuel + 1, (node, steps) :: stack, st =>
    if steps ≤ maxD ∧ node ∉ st.marks then
      let st1 : SearchState :=
        if minD ≤ steps then
          { marks := node :: st.marks,
            hull := if targetOk target node then insertIntoMap st.hull start node else st.hull }
        else st
      loopB succ minD maxD target start fuel
        (((succ node).map (fun c => (c, steps + 1))).reverse ++ stack) st1
    else loopB succ minD maxD target start fuel stack st

/-- `map[variable] = columnIndex` on the embedded variable→column map:
overwrite the entry if the variable is present, append it otherwise. -/
def upsertVarCol : List (Nat × Nat) → Nat → Nat → List (Nat × Nat)
  | [], v, c => [(v, c)]
  | (v', c') :: m, v, c => if v' = v then (v, c) :: m else (v', c') :: upsertVarCol m v c

/-- `TransitivePath::bindLeftOrRightSide` (TransitivePath.cpp lines 288–323):
sort-enforce the feeding sub-plan on `inputCol`; construct a fresh operator
from this operator's subtree, sides and window; bind the requested side of
the copy to the sorted sub-plan and `inputCol`; then add every sub-plan
variable other than the join column to the copy's variable→column map
(shifted by 1 past the join column, else by 2) and grow its result width.
The method is `const`: the pair returned is `(the new operator, the receiver
after the call)`, the second component recording that no statement of the
body writes to the receiver. -/
def bindLeftOrRightSide (self : TransitivePath) (leftOrRightOp : QueryExecutionTree)
    (inputCol : Nat) (isLeft : Bool) : TransitivePath × TransitivePath :=
  let sorted := createSortedTree leftOrRightOp [inputCol]
  let p0 := mkTransitivePath self.subtree self.lhs self.rhs self.minDist self.maxDist
  let p1 := if isLeft
    then { p0 with lhs := { p0.lhs with treeAndCol := some (sorted, inputCol) } }
    else { p0 with rhs := { p0.rhs with treeAndCol := some (sorted, inputCol) } }
  let p2 := sorted.varCols.foldl
    (fun p vc =>
      if vc.2 = inputCol then p
      else { p with
             variableColumns := upsertVarCol p.variableColumns vc.1
               (vc.2 + (if inputCol < vc.2 then 1 else 2))
             resultWidth := p.resultWidth + 1 })
    p1
  (p2, self)

/-- `TransitivePath::bindLeftSide` (TransitivePath.cpp lines 276–279). -/
def bindLeftSide (self : TransitivePath) (leftOp : QueryExecutionTree) (inputCol : Nat) :
    TransitivePath × TransitivePath :=
  bindLeftOrRightSide self leftOp inputCol true

/-- `TransitivePath::bindRightSide` (TransitivePath.cpp lines 282–285). -/
def bindRightSide (self : TransitivePath) (rightOp : QueryExecutionTree) (inputCol : Nat) :
    TransitivePath × TransitivePath :=
  bindLeftOrRightSide self rightOp inputCol false

/-- A path of length `d` from `s` to `t` whose edges all occur in the pair
list `E`. -/
inductive HasPath (E : List (Nat × Nat)) : Nat → Nat → Nat → Prop where
  | refl (s : Nat) : HasPath E s s 0
  | step {s c t d : Nat} : (s, c) ∈ E → HasPath E c t d → HasPath E s t (d + 1)

/-- A path of length `d` from `s` to `t` along a successor function. -/
inductive ReachN (succ : Nat → List Nat) : Nat → Nat → Nat → Prop where
  | refl (s : Nat) : ReachN succ s s 0
  | step {s c t d : Nat} : c ∈ succ s → ReachN succ c t d → ReachN succ s t (d + 1)

/-- A path of length `n` from `c` to `t` along a successor function, all of
whose nodes (including the endpoints) avoid the list `avoid`. -/
inductive RAn (succ : Nat → List Nat) (avoid : List Nat) : Nat → Nat → Nat → Prop where
  | refl (c : Nat) : c ∉ avoid → RAn succ avoid c c 0
  | step {c v t n : Nat} : c ∉ avoid → v ∈ succ c → RAn succ avoid v t n →
      RAn succ avoid c t (n + 1)

/-- Well-formedness of the hull / edge maps the back-ends build: keys are
unique and every stored set is duplicate-free and non-empty. -/
def goodMap (m : Map) : Prop :=
  (keysOf m).Nodup ∧ ∀ kv ∈ m, kv.2.Nodup ∧ kv.2 ≠ []

instance : DecidablePred goodMap := fun m => by
  unfold goodMap; infer_instance

/-- The edge relation of an operator in its original orientation: the pairs
of the left-side and right-side columns of the edge sub-result. -/
def edgePairs (op : TransitivePath) : List (Nat × Nat) :=
  List.zip (column op.subtree.rows op.lhs.subCol) (column op.subtree.rows op.rhs.subCol)

/-- The edge relation in the decided `(start, target)` orientation. -/
def decidedEdges (op : TransitivePath) : List (Nat × Nat) :=
  List.zip (column op.subtree.rows (decideDirection op).1.subCol)
    (column op.subtree.rows (decideDirection op).2.subCol)

/-- The start-node list `computeResult` traverses from, after the direction
decision: the bound side's join column if the start side is bound, otherwise
the `setupMapAndNodes` selection. -/
def decidedNodes (op : TransitivePath) : List Nat :=
  match (decideDirection op).1.treeAndCol with
  | some (tree, col) => column tree.rows col
  | none => unboundStartNodes op.subtree.rows (decideDirection op).1 (decideDirection op).2
      op.minDist

/-- A duplicate-free universe containing the start nodes and every successor
the search can visit. -/
def nodeUniverse (nodes : List Nat) (E : List (Nat × Nat)) : List Nat :=
  (nodes ++ E.map (fun p => p.2)).dedup

/-- `maxDist` large enough that the depth guard of the search never fires:
at least the size of the node universe plus one (in particular the saturated
`maxDist` of the `+`/`*` operators). -/
def bigEnough (op : TransitivePath) : Prop :=
  (nodeUniverse (decidedNodes op) (decidedEdges op)).length + 1 ≤ op.maxDist

instance : DecidablePred bigEnough := fun op => by
  unfold bigEnough; infer_instance

/-- The `(left output, right output)` pairs of the emitted rows (columns 0
and 1 of the output table). -/
def rowPairs (rows : List (List Nat)) : List (Nat × Nat) :=
  rows.map (fun r => (cell r 0, cell r 1))

/-! ## Basic lemmas: cells, rows and association-list maps -/

theorem length_setCell (r : List Nat) (i v : Nat) : (setCell r i v).length = r.length :=
  List.length_set r i v

theorem cell_setCell_self {r : List Nat} {i : Nat} (v : Nat) (h : i < r.length) :
    cell (setCell r i v) i = v := by
  simp [cell, setCell, List.getD_eq_getElem?_getD, List.getElem?_set_self h]

theorem cell_setCell_ne {r : List Nat} {i j : Nat} (v : Nat) (h : i ≠ j) :
    cell (setCell r i v) j = cell r j := by
  simp [cell, setCell, List.getD_eq_getElem?_getD, List.getElem?_set_ne h]

theorem length_emptyRow (w : Nat) : (emptyRow w).length = w := List.length_replicate w 0

theorem hullSetOf_eq (m : Map) (k : Nat) : hullSetOf m k = (lookupMap m k).getD [] := rfl

theorem lookupMap_insertIntoMap (m : Map) (k v k' : Nat) :
    lookupMap (insertIntoMap m k v) k' =
      if k' = k then
        some (if v ∈ (lookupMap m k).getD [] then (lookupMap m k).getD []
              else (lookupMap m k).getD [] ++ [v])
      else lookupMap m k' := by
  induction m with
  | nil =>
    by_cases h : k' = k
    · subst h; simp [insertIntoMap, lookupMap]
    · simp [insertIntoMap, lookupMap, h, Ne.symm h]
  | cons kv m ih =>
    obtain ⟨a, vs⟩ := kv
    by_cases ha : a = k
    · subst ha
      by_cases h : k' = a
      · subst h; simp [insertIntoMap, lookupMap]
      · simp [insertIntoMap, lookupMap, h, Ne.symm h]
    · by_cases h : a = k'
      · subst h
        simp [insertIntoMap, lookupMap, ha, Ne.symm ha, ih]
      · simp [insertIntoMap, lookupMap, ha, h, ih]

theorem hullSetOf_insertIntoMap_self (m : Map) (k v : Nat) :
    hullSetOf (insertIntoMap m k v) k =
      if v ∈ hullSetOf m k then hullSetOf m k else hullSetOf m k ++ [v] := by
  simp [hullSetOf, lookupMap_insertIntoMap]

theorem hullSetOf_insertIntoMap_ne (m : Map) (k v : Nat) {k' : Nat} (h : k' ≠ k) :
    hullSetOf (insertIntoMap m k v) k' = hullSetOf m k' := by
  simp [hullSetOf, lookupMap_insertIntoMap, h]

theorem mem_hullSetOf_insertIntoMap (m : Map) (k v k' t : Nat) :
    t ∈ hullSetOf (insertIntoMap m k v) k' ↔ (k' = k ∧ t = v) ∨ t ∈ hullSetOf m k' := by
  by_cases h : k' = k
  · subst h
    rw [hullSetOf_insertIntoMap_self]
    by_cases hv : v ∈ hullSetOf m k'
    · simp only [if_pos hv, true_and]
      constructor
      · tauto
      · rintro (rfl | h') <;> [exact hv; exact h']
    · simp only [if_neg hv, true_and, List.mem_append, List.mem_singleton]
      tauto
  · rw [hullSetOf_insertIntoMap_ne m k v h]
    simp [h]

theorem containsKey_iff (m : Map) (k : Nat) : containsKey m k = true ↔ k ∈ keysOf m := by
  induction m with
  | nil => simp [containsKey, lookupMap, keysOf]
  | cons kv m ih =>
    obtain ⟨k', vs⟩ := kv
    by_cases h : k' = k
    · subst h; simp [containsKey, lookupMap, keysOf]
    · simp only [containsKey, lookupMap, if_neg h, keysOf, List.map_cons, List.mem_cons]
      rw [← containsKey, ih, keysOf]
      simp [Ne.symm h]

theorem keysOf_insertIntoMap (m : Map) (k v : Nat) :
    keysOf (insertIntoMap m k v) = if k ∈ keysOf m then keysOf m else keysOf m ++ [k] := by
  induction m with
  | nil => simp [insertIntoMap, keysOf]
  | cons kv m ih =>
    obtain ⟨k', vs⟩ := kv
    by_cases h : k' = k
    · subst h; simp [insertIntoMap, keysOf]
    · by_cases h' : k ∈ keysOf m <;>
        simp only [insertIntoMap, if_neg h, keysOf, List.map_cons, List.mem_cons] <;>
        rw [← keysOf, ← keysOf, ih] <;>
        simp [h', Ne.symm h]

theorem lookupMap_eq_some_of_mem {m : Map} (hnd : (keysOf m).Nodup) {k : Nat}
    {vs : List Nat} (h : (k, vs) ∈ m) : lookupMap m k = some vs := by
  induction m with
  | nil => simp at h
  | cons kv m ih =>
    obtain ⟨k', vs'⟩ := kv
    simp only [keysOf, List.map_cons, List.nodup_cons] at hnd
    rcases List.mem_cons.mp h with h' | h'
    · obtain ⟨h1, h2⟩ := Prod.mk.injEq .. ▸ h'
      subst h1; subst h2
      simp [lookupMap]
    · have hk : k' ≠ k := by
        rintro rfl
        exact hnd.1 (by simpa [keysOf] using List.mem_map_of_mem Prod.fst h')
      simp only [lookupMap, if_neg hk]
      exact ih hnd.2 h'

theorem mem_of_lookupMap_eq_some {m : Map} {k : Nat} {vs : List Nat}
    (h : lookupMap m k = some vs) : (k, vs) ∈ m := by
  induction m with
  | nil => simp [lookupMap] at h
  | cons kv m ih =>
    obtain ⟨k', vs'⟩ := kv
    by_cases hk : k' = k
    · subst hk
      simp only [lookupMap, eq_self_iff_true, if_true, Option.some.injEq] at h
      subst h
      simp
    · simp only [lookupMap, if_neg hk] at h
      exact List.mem_cons_of_mem _ (ih h)

theorem mem_insertIntoMap (m : Map) (k v : Nat) (kv : Nat × List Nat)
    (h : kv ∈ insertIntoMap m k v) :
    kv ∈ m ∨ (kv.1 = k ∧ (kv.2 = [v] ∨
      ∃ vs, (k, vs) ∈ m ∧ (kv.2 = vs ∨ (v ∉ vs ∧ kv.2 = vs ++ [v])))) := by
  induction m with
  | nil =>
    simp [insertIntoMap] at h
    subst h
    simp
  | cons kv' m ih =>
    obtain ⟨a, vs'⟩ := kv'
    by_cases ha : a = k
    · subst ha
      simp only [insertIntoMap, if_pos rfl] at h
      rcases List.mem_cons.mp h with h' | h'
      · subst h'
        by_cases hv : v ∈ vs'
        · exact Or.inl (by simp [hv])
        · refine Or.inr ⟨rfl, Or.inr ⟨vs', by simp, Or.inr ⟨hv, by simp [hv]⟩⟩⟩
      · exact Or.inl (List.mem_cons_of_mem _ h')
    · simp only [insertIntoMap, if_neg ha] at h
      rcases List.mem_cons.mp h with h' | h'
      · exact Or.inl (by simp [h'])
      · rcases ih h' with h'' | ⟨h1, h2⟩
        · exact Or.inl (List.mem_cons_of_mem _ h'')
        · refine Or.inr ⟨h1, ?_⟩
          rcases h2 with h2 | ⟨vs, hvs, h3⟩
          · exact Or.inl h2
          · exact Or.inr ⟨vs, List.mem_cons_of_mem _ hvs, h3⟩

theorem goodMap_insertIntoMap {m : Map} (h : goodMap m) (k v : Nat) :
    goodMap (insertIntoMap m k v) := by
  obtain ⟨hkeys, hvals⟩ := h
  constructor
  · rw [keysOf_insertIntoMap]
    by_cases hk : k ∈ keysOf m
    · simpa [hk] using hkeys
    · simp only [if_neg hk]
      exact List.Nodup.append hkeys (List.nodup_singleton k)
        (by simpa [List.disjoint_singleton] using hk)
  · intro kv hkv
    rcases mem_insertIntoMap m k v kv hkv with h' | ⟨h1, h2⟩
    · exact hvals kv h'
    · rcases h2 with h2 | ⟨vs, hvs, h3 | ⟨hv, h3⟩⟩
      · simp [h2]
      · exact h3 ▸ hvals (k, vs) hvs
      · have := hvals (k, vs) hvs
        constructor
        · rw [h3]
          simpa [List.nodup_append] using ⟨this.1, hv⟩
        · simp [h3]

/-! ## Lemmas about the depth-first search -/

theorem ReachN.snoc {succ : Nat → List Nat} {s c c' : Nat} {d : Nat}
    (h : ReachN succ s c d) (h' : c' ∈ succ c) : ReachN succ s c' (d + 1) := by
  induction h with
  | refl s => exact ReachN.step h' (ReachN.refl c')
  | step hc htail ih => exact ReachN.step hc (ih h')

theorem dfsGo_marks_suffix (succ : Nat → List Nat) (minD maxD : Nat) (target : Option Nat)
    (start : Nat) (cs : List Nat) (depth : Nat) (st : SearchState) :
    st.marks <:+ (dfsGo succ minD maxD target start cs depth st).marks := by
  induction cs, depth, st using dfsGo.induct succ minD maxD target start with
  | case1 depth st => simp [dfsGo]
  | case2 c cs depth st h st1 ihInner ihInner' ihOuter =>
    rw [dfsGo, dif_pos h]
    have h1 : st.marks <:+ st1.marks := by
      by_cases hm : minD ≤ depth
      · simp only [st1, dif_pos hm]
        exact List.suffix_cons c st.marks
      · simp only [st1, dif_neg hm]
        exact List.suffix_refl _
    exact (h1.trans ihInner).trans ihOuter
  | case3 c cs depth st h ih =>
    rw [dfsGo, dif_neg h]
    exact ih

theorem dfsGo_marks_nodup (succ : Nat → List Nat) (minD maxD : Nat) (target : Option Nat)
    (start : Nat) (cs : List Nat) (depth : Nat) (st : SearchState) :
    st.marks.Nodup → (dfsGo succ minD maxD target start cs depth st).marks.Nodup := by
  induction cs, depth, st using dfsGo.induct succ minD maxD target start with
  | case1 depth st => intro hnd; simpa [dfsGo] using hnd
  | case2 c cs depth st h st1 ihInner ihInner' ihOuter =>
    intro hnd
    rw [dfsGo, dif_pos h]
    refine ihOuter (ihInner ?_)
    by_cases hm : minD ≤ depth
    · simp only [st1, dif_pos hm]
      simpa using ⟨h.2, hnd⟩
    · simpa only [st1, dif_neg hm] using hnd
  | case3 c cs depth st h ih =>
    intro hnd
    rw [dfsGo, dif_neg h]
    exact ih hnd

theorem dfsGo_hull_mono (succ : Nat → List Nat) (minD maxD : Nat) (target : Option Nat)
    (start : Nat) (cs : List Nat) (depth : Nat) (st : SearchState) (k t : Nat) :
    t ∈ hullSetOf st.hull k →
      t ∈ hullSetOf (dfsGo succ minD maxD target start cs depth st).hull k := by
  induction cs, depth, st using dfsGo.induct succ minD maxD target start with
  | case1 depth st => intro hmem; simpa [dfsGo] using hmem
  | case2 c cs depth st h st1 ihInner ihInner' ihOuter =>
    intro hmem
    rw [dfsGo, dif_pos h]
    refine ihOuter (ihInner ?_)
    by_cases hm : minD ≤ depth
    · by_cases ht : targetOk target c
      · simp only [st1, dif_pos hm, dif_pos ht]
        exact (mem_hullSetOf_insertIntoMap ..).mpr (Or.inr hmem)
      · simpa only [st1, dif_pos hm, dif_neg ht] using hmem
    · simpa only [st1, dif_neg hm] using hmem
  | case3 c cs depth st h ih =>
    intro hmem
    rw [dfsGo, dif_neg h]
    exact ih hmem

theorem dfsGo_hull_keys (succ : Nat → List Nat) (minD maxD : Nat) (target : Option Nat)
    (start : Nat) (cs : List Nat) (depth : Nat) (st : SearchState) (k : Nat) :
    k ∈ keysOf (dfsGo succ minD maxD target start cs depth st).hull →
      k ∈ keysOf st.hull ∨ k = start := by
  induction cs, depth, st using dfsGo.induct succ minD maxD target start with
  | case1 depth st => intro hk; exact Or.inl (by simpa [dfsGo] using hk)
  | case2 c cs depth st h st1 ihInner ihInner' ihOuter =>
    rw [dfsGo, dif_pos h]
    intro hk
    rcases ihOuter hk with hk' | hk'
    · rcases ihInner hk' with hk'' | hk''
      · by_cases hm : minD ≤ depth
        · by_cases ht : targetOk target c
          · simp only [st1, dif_pos hm, dif_pos ht] at hk''
            rw [keysOf_insertIntoMap] at hk''
            by_cases hc : start ∈ keysOf st.hull
            · exact Or.inl (by simpa [hc] using hk'')
            · rw [if_neg hc] at hk''
              rcases List.mem_append.mp hk'' with h' | h'
              · exact Or.inl h'
              · exact Or.inr (by simpa using h')
          · exact Or.inl (by simpa only [st1, dif_pos hm, dif_neg ht] using hk'')
        · exact Or.inl (by simpa only [st1, dif_neg hm] using hk'')
      · exact Or.inr hk''
    · exact Or.inr hk'
  | case3 c cs depth st h ih =>
    rw [dfsGo, dif_neg h]
    exact ih

theorem dfsGo_hull_goodMap (succ : Nat → List Nat) (minD maxD : Nat) (target : Option Nat)
    (start : Nat) (cs : List Nat) (depth : Nat) (st : SearchState) :
    goodMap st.hull → goodMap (dfsGo succ minD maxD target start cs depth st).hull := by
  induction cs, depth, st using dfsGo.induct succ minD maxD target start with
  | case1 depth st => intro hg; simpa [dfsGo] using hg
  | case2 c cs depth st h st1 ihInner ihInner' ihOuter =>
    intro hg
    rw [dfsGo, dif_pos h]
    refine ihOuter (ihInner ?_)
    by_cases hm : minD ≤ depth
    · by_cases ht : targetOk target c
      · simp only [st1, dif_pos hm, dif_pos ht]
        exact goodMap_insertIntoMap hg start c
      · simpa only [st1, dif_pos hm, dif_neg ht] using hg
    · simpa only [st1, dif_neg hm] using hg
  | case3 c cs depth st h ih =>
    intro hg
    rw [dfsGo, dif_neg h]
    exact ih hg

theorem dfsGo_hull_sound (succ : Nat → List Nat) (minD maxD : Nat) (target : Option Nat)
    (start : Nat) (P : Nat → Nat → Prop)
    (hP : ∀ c d, minD ≤ d → d ≤ maxD → ReachN succ start c d →
      targetOk target c = true → P start c)
    (cs : List Nat) (depth : Nat) (st : SearchState) :
    (∀ c ∈ cs, ReachN succ start c depth) →
    (∀ k t, t ∈ hullSetOf st.hull k → P k t) →
    ∀ k t, t ∈ hullSetOf (dfsGo succ minD maxD target start cs depth st).hull k → P k t := by
  induction cs, depth, st using dfsGo.induct succ minD maxD target start with
  | case1 depth st =>
    intro _ hst k t hmem
    exact hst k t (by simpa [dfsGo] using hmem)
  | case2 c cs depth st h st1 ihInner ihInner' ihOuter =>
    intro hcs hst k t hmem
    rw [dfsGo, dif_pos h] at hmem
    have hreach : ReachN succ start c depth := hcs c (by simp)
    refine ihOuter (fun c' hc' => hcs c' (by simp [hc'])) ?_ k t hmem
    refine ihInner (fun c' hc' => hreach.snoc hc') ?_
    by_cases hm : minD ≤ depth
    · by_cases ht : targetOk target c
      · simp only [st1, dif_pos hm, dif_pos ht]
        intro k' t' hmem'
        rcases (mem_hullSetOf_insertIntoMap ..).mp hmem' with ⟨rfl, rfl⟩ | hmem''
        · exact hP _ depth hm h.1 hreach ht
        · exact hst k' t' hmem''
      · simpa only [st1, dif_pos hm, dif_neg ht] using hst
    · simpa only [st1, dif_neg hm] using hst
  | case3 c cs depth st h ih =>
    intro hcs hst k t hmem
    rw [dfsGo, dif_neg h] at hmem
    exact ih (fun c' hc' => hcs c' (by simp [hc'])) hst k t hmem

/-! ## Lemmas about `transitiveHull` (both back-ends share the fold shape) -/

theorem hullFold_sound (succ : Nat → List Nat) (minD maxD : Nat) (target : Option Nat)
    (cs0 : Nat → List Nat) (d0 : Nat)
    (hcs : ∀ s c, c ∈ cs0 s → ReachN succ s c d0)
    (startNodes : List Nat) (hull0 : Map)
    (h0 : ∀ k t, t ∈ hullSetOf hull0 k →
      (∃ d, minD ≤ d ∧ d ≤ maxD ∧ ReachN succ k t d) ∧ targetOk target t = true) :
    ∀ k t, t ∈ hullSetOf (startNodes.foldl (fun hull s =>
        if containsKey hull s then hull
        else (dfsGo succ minD maxD target s (cs0 s) d0
          ⟨[], if minD = 0 ∧ targetOk target s then insertIntoMap hull s s else hull⟩).hull)
        hull0) k →
      (∃ d, minD ≤ d ∧ d ≤ maxD ∧ ReachN succ k t d) ∧ targetOk target t = true := by
  induction startNodes generalizing hull0 with
  | nil => exact h0
  | cons s ss ih =>
    intro k t hmem
    rw [List.foldl_cons] at hmem
    refine ih _ ?_ k t hmem
    by_cases hc : containsKey hull0 s
    · simpa [hc] using h0
    · simp only [if_neg hc]
      refine dfsGo_hull_sound succ minD maxD target s _
        (fun c d h1 h2 h3 h4 => ⟨⟨d, h1, h2, h3⟩, h4⟩) (cs0 s) d0 _
        (fun c hc' => hcs s c hc') ?_
      intro k' t' hmem'
      by_cases hpre : minD = 0 ∧ targetOk target s
      · simp only [if_pos hpre] at hmem'
        rcases (mem_hullSetOf_insertIntoMap ..).mp hmem' with ⟨rfl, rfl⟩ | hmem''
        · exact ⟨⟨0, by omega, Nat.zero_le _, ReachN.refl _⟩, hpre.2⟩
        · exact h0 k' t' hmem''
      · simp only [if_neg hpre] at hmem'
        exact h0 k' t' hmem'

theorem hullFold_keys (succ : Nat → List Nat) (minD maxD : Nat) (target : Option Nat)
    (cs0 : Nat → List Nat) (d0 : Nat) (startNodes : List Nat) (hull0 : Map) :
    ∀ k, k ∈ keysOf (startNodes.foldl (fun hull s =>
        if containsKey hull s then hull
        else (dfsGo succ minD maxD target s (cs0 s) d0
          ⟨[], if minD = 0 ∧ targetOk target s then insertIntoMap hull s s else hull⟩).hull)
        hull0) →
      k ∈ keysOf hull0 ∨ k ∈ startNodes := by
  induction startNodes generalizing hull0 with
  | nil => exact fun k h => Or.inl h
  | cons s ss ih =>
    intro k hmem
    rw [List.foldl_cons] at hmem
    rcases ih _ k hmem with h' | h'
    · by_cases hc : containsKey hull0 s
      · exact Or.inl (by simpa [hc] using h')
      · rw [if_neg hc] at h'
        rcases dfsGo_hull_keys succ minD maxD target s _ _ _ k h' with h'' | h''
        · by_cases hpre : minD = 0 ∧ targetOk target s
          · simp only [if_pos hpre] at h''
            rw [keysOf_insertIntoMap] at h''
            by_cases hs : s ∈ keysOf hull0
            · exact Or.inl (by simpa [hs] using h'')
            · rw [if_neg hs] at h''
              rcases List.mem_append.mp h'' with h3 | h3
              · exact Or.inl h3
              · exact Or.inr (by simp [show k = s by simpa using h3])
          · exact Or.inl (by simpa [hpre] using h'')
        · simp [h'']
    · simp [h']

theorem hullFold_goodMap (succ : Nat → List Nat) (minD maxD : Nat) (target : Option Nat)
    (cs0 : Nat → List Nat) (d0 : Nat) (startNodes : List Nat) (hull0 : Map)
    (h0 : goodMap hull0) :
    goodMap (startNodes.foldl (fun hull s =>
        if containsKey hull s then hull
        else (dfsGo succ minD maxD target s (cs0 s) d0
          ⟨[], if minD = 0 ∧ targetOk target s then insertIntoMap hull s s else hull⟩).hull)
        hull0) := by
  induction startNodes generalizing hull0 with
  | nil => exact h0
  | cons s ss ih =>
    rw [List.foldl_cons]
    refine ih _ ?_
    by_cases hc : containsKey hull0 s
    · simpa [hc] using h0
    · rw [if_neg hc]
      refine dfsGo_hull_goodMap succ minD maxD target s _ _ _ ?_
      by_cases hpre : minD = 0 ∧ targetOk target s
      · simp only [if_pos hpre]
        exact goodMap_insertIntoMap h0 s s
      · simpa [hpre] using h0

theorem ReachN_hasPath {succ : Nat → List Nat} {E : List (Nat × Nat)}
    (hsub : ∀ n c, c ∈ succ n → (n, c) ∈ E) {s t d : Nat}
    (h : ReachN succ s t d) : HasPath E s t d := by
  induction h with
  | refl s => exact HasPath.refl s
  | step hc htail ih => exact HasPath.step (hsub _ _ hc) ih

theorem mem_foldl_insertIntoMap {l : List (Nat × Nat)} {m0 : Map} {n t : Nat}
    (h : t ∈ hullSetOf (l.foldl (fun m p => insertIntoMap m p.1 p.2) m0) n) :
    (n, t) ∈ l ∨ t ∈ hullSetOf m0 n := by
  induction l generalizing m0 with
  | nil => exact Or.inr h
  | cons p l ih =>
    rw [List.foldl_cons] at h
    rcases ih h with h' | h'
    · exact Or.inl (List.mem_cons_of_mem _ h')
    · rcases (mem_hullSetOf_insertIntoMap ..).mp h' with ⟨rfl, rfl⟩ | h''
      · exact Or.inl (by simp)
      · exact Or.inr h''

theorem successorsF_mem {sub : List (List Nat)} {sc tc n c : Nat}
    (h : c ∈ TransitivePathFallback.successors
      (TransitivePathFallback.setupEdgesMap sub sc tc) n) :
    (n, c) ∈ List.zip (column sub sc) (column sub tc) := by
  rcases @mem_foldl_insertIntoMap (List.zip (column sub sc) (column sub tc)) [] n c
    (by simpa [TransitivePathFallback.successors, hullSetOf,
      TransitivePathFallback.setupEdgesMap] using h) with h' | h'
  · exact h'
  · simp [hullSetOf, lookupMap] at h'

theorem successorsB_mem {E : List (Nat × Nat)} {n c : Nat}
    (h : c ∈ TransitivePathBinSearch.successors E n) : (n, c) ∈ E := by
  simp only [TransitivePathBinSearch.successors, List.mem_map, List.mem_filter] at h
  obtain ⟨p, ⟨hp, hp1⟩, hp2⟩ := h
  have : p = (n, c) := by
    obtain ⟨a, b⟩ := p
    simp at hp1 hp2
    simp [hp1, hp2]
  exact this ▸ hp

theorem mem_sortedEdgeList {sub : List (List Nat)} {sc tc : Nat} {p : Nat × Nat} :
    p ∈ TransitivePathBinSearch.sortedEdgeList sub sc tc ↔
      p ∈ List.zip (column sub sc) (column sub tc) := by
  exact (List.mergeSort_perm (List.zip (column sub sc) (column sub tc)) pairLe).mem_iff

/-! ## Lemmas about the result materializer -/

theorem length_copyColumnsGo (input : List Nat) (skipCol : Nat) (inCol outCol : Nat)
    (output : List Nat) :
    (TransitivePath.copyColumnsGo input skipCol inCol outCol output).length = output.length := by
  induction inCol, outCol, output using TransitivePath.copyColumnsGo.induct input skipCol with
  | case1 outCol output h ih =>
    rw [TransitivePath.copyColumnsGo, dif_pos h, if_pos rfl]
    exact ih
  | case2 inCol outCol output h hne ih =>
    rw [TransitivePath.copyColumnsGo, dif_pos h, if_neg hne]
    rw [ih, length_setCell]
  | case3 inCol outCol output h =>
    rw [TransitivePath.copyColumnsGo, dif_neg h]

theorem cell_copyColumnsGo_lt (input : List Nat) (skipCol : Nat) (inCol outCol : Nat)
    (output : List Nat) (j : Nat) (hj : j < outCol) :
    cell (TransitivePath.copyColumnsGo input skipCol inCol outCol output) j = cell output j := by
  revert hj
  induction inCol, outCol, output using TransitivePath.copyColumnsGo.induct input skipCol with
  | case1 outCol output h ih =>
    intro hj
    rw [TransitivePath.copyColumnsGo, dif_pos h, if_pos rfl]
    exact ih hj
  | case2 inCol outCol output h hne ih =>
    intro hj
    rw [TransitivePath.copyColumnsGo, dif_pos h, if_neg hne]
    rw [ih (by omega), cell_setCell_ne _ (by omega)]
  | case3 inCol outCol output h =>
    intro hj
    rw [TransitivePath.copyColumnsGo, dif_neg h]

theorem cell_copyColumns_lt (input output : List Nat) (skipCol : Nat) (j : Nat) (hj : j < 2) :
    cell (TransitivePath.copyColumns input output skipCol) j = cell output j :=
  cell_copyColumnsGo_lt input skipCol 0 2 output j hj

theorem length_copyColumns (input output : List Nat) (skipCol : Nat) :
    (TransitivePath.copyColumns input output skipCol).length = output.length :=
  length_copyColumnsGo input skipCol 0 2 output

theorem cell_pairRow_start {w sc tc : Nat} (k t : Nat) (hne : sc ≠ tc) (hsc : sc < w) :
    cell (setCell (setCell (emptyRow w) sc k) tc t) sc = k := by
  rw [cell_setCell_ne _ (Ne.symm hne), cell_setCell_self _ (by rw [length_emptyRow]; exact hsc)]

theorem cell_pairRow_target {w sc tc : Nat} (k t : Nat) (htc : tc < w) :
    cell (setCell (setCell (emptyRow w) sc k) tc t) tc = t := by
  rw [cell_setCell_self _ (by rw [length_setCell, length_emptyRow]; exact htc)]

theorem mem_fillTableWithHull {hull : Map} {sc tc w : Nat} {row : List Nat}
    (h : row ∈ TransitivePath.fillTableWithHull hull sc tc w) :
    ∃ kv t, kv ∈ hull ∧ t ∈ kv.2 ∧ row = setCell (setCell (emptyRow w) sc kv.1) tc t := by
  simp only [TransitivePath.fillTableWithHull, List.mem_flatMap, List.mem_map] at h
  obtain ⟨kv, hkv, t, ht, hrow⟩ := h
  exact ⟨kv, t, hkv, ht, hrow.symm⟩

theorem mem_fillTableWithHullBound {hull : Map} {nodes : List Nat} {sc tc : Nat}
    {table : List (List Nat)} {skipCol w : Nat} {row : List Nat}
    (h : row ∈ TransitivePath.fillTableWithHullBound hull nodes sc tc table skipCol w) :
    ∃ node srow ts t, lookupMap hull node = some ts ∧ t ∈ ts ∧ node ∈ nodes ∧ srow ∈ table ∧
      row = TransitivePath.copyColumns srow
        (setCell (setCell (emptyRow w) sc node) tc t) skipCol := by
  induction nodes generalizing table with
  | nil => rw [TransitivePath.fillTableWithHullBound.eq_def] at h; simp at h
  | cons node nodes ih =>
    match table with
    | [] => rw [TransitivePath.fillTableWithHullBound.eq_def] at h; simp at h
    | srow :: srows =>
      rw [TransitivePath.fillTableWithHullBound] at h
      rcases List.mem_append.mp h with h' | h'
      · match hlk : lookupMap hull node with
        | none => rw [hlk] at h'; simp at h'
        | some ts =>
          rw [hlk] at h'
          obtain ⟨t, ht, hrow⟩ := List.mem_map.mp h'
          exact ⟨node, srow, ts, t, hlk, ht, by simp, by simp, hrow.symm⟩
      · obtain ⟨n', s', ts, t, h1, h2, h3, h4, h5⟩ := ih h'
        exact ⟨n', s', ts, t, h1, h2, by simp [h3], by simp [h4], h5⟩

theorem fillTableWithHullBound_empty {nodes : List Nat} {sc tc : Nat}
    {table : List (List Nat)} {skipCol w : Nat} :
    TransitivePath.fillTableWithHullBound [] nodes sc tc table skipCol w = [] := by
  induction nodes generalizing table with
  | nil => rw [TransitivePath.fillTableWithHullBound.eq_def]
  | cons node nodes ih =>
    match table with
    | [] => rw [TransitivePath.fillTableWithHullBound.eq_def]
    | srow :: srows =>
      rw [TransitivePath.fillTableWithHullBound]
      simpa [lookupMap] using ih

/-! ## Per-back-end hull lemmas and path reorientation -/

theorem transitiveHullF_sound {edges : Map} {minD maxD : Nat} {startNodes : List Nat}
    {target : Option Nat} {k t : Nat}
    (h : t ∈ hullSetOf
      (TransitivePathFallback.transitiveHull edges minD maxD startNodes target) k) :
    (∃ d, minD ≤ d ∧ d ≤ maxD ∧ ReachN (TransitivePathFallback.successors edges) k t d) ∧
      targetOk target t = true := by
  refine hullFold_sound (TransitivePathFallback.successors edges) minD maxD target
    (TransitivePathFallback.successors edges) 1
    (fun s c hc => ReachN.step hc (ReachN.refl c)) startNodes []
    (fun k t h => by simp [hullSetOf, lookupMap] at h) k t ?_
  simpa only [TransitivePathFallback.transitiveHull] using h

theorem transitiveHullB_sound {E : List (Nat × Nat)} {minD maxD : Nat} {startNodes : List Nat}
    {target : Option Nat} {k t : Nat}
    (h : t ∈ hullSetOf
      (TransitivePathBinSearch.transitiveHull E minD maxD startNodes target) k) :
    (∃ d, minD ≤ d ∧ d ≤ maxD ∧
      ReachN (fun n => (TransitivePathBinSearch.successors E n).reverse) k t d) ∧
      targetOk target t = true := by
  refine hullFold_sound (fun n => (TransitivePathBinSearch.successors E n).reverse) minD maxD
    target (fun s => [s]) 0
    (fun s c hc => by obtain rfl := List.mem_singleton.mp hc; exact ReachN.refl c)
    startNodes []
    (fun k t h => by simp [hullSetOf, lookupMap] at h) k t ?_
  simpa only [TransitivePathBinSearch.transitiveHull] using h

theorem transitiveHullF_goodMap (edges : Map) (minD maxD : Nat) (startNodes : List Nat)
    (target : Option Nat) :
    goodMap (TransitivePathFallback.transitiveHull edges minD maxD startNodes target) := by
  have := hullFold_goodMap (TransitivePathFallback.successors edges) minD maxD target
    (TransitivePathFallback.successors edges) 1 startNodes [] (by simp [goodMap, keysOf])
  simpa only [TransitivePathFallback.transitiveHull] using this

theorem transitiveHullB_goodMap (E : List (Nat × Nat)) (minD maxD : Nat)
    (startNodes : List Nat) (target : Option Nat) :
    goodMap (TransitivePathBinSearch.transitiveHull E minD maxD startNodes target) := by
  have := hullFold_goodMap (fun n => (TransitivePathBinSearch.successors E n).reverse) minD maxD
    target (fun s => [s]) 0 startNodes [] (by simp [goodMap, keysOf])
  simpa only [TransitivePathBinSearch.transitiveHull] using this

theorem transitiveHullF_keys {edges : Map} {minD maxD : Nat} {startNodes : List Nat}
    {target : Option Nat} {k : Nat}
    (h : k ∈ keysOf (TransitivePathFallback.transitiveHull edges minD maxD startNodes target)) :
    k ∈ startNodes := by
  have := hullFold_keys (TransitivePathFallback.successors edges) minD maxD target
    (TransitivePathFallback.successors edges) 1 startNodes [] k
    (by simpa only [TransitivePathFallback.transitiveHull] using h)
  simpa [keysOf] using this

theorem transitiveHullB_keys {E : List (Nat × Nat)} {minD maxD : Nat} {startNodes : List Nat}
    {target : Option Nat} {k : Nat}
    (h : k ∈ keysOf (TransitivePathBinSearch.transitiveHull E minD maxD startNodes target)) :
    k ∈ startNodes := by
  have := hullFold_keys (fun n => (TransitivePathBinSearch.successors E n).reverse) minD maxD
    target (fun s => [s]) 0 startNodes [] k
    (by simpa only [TransitivePathBinSearch.transitiveHull] using h)
  simpa [keysOf] using this

theorem HasPath.snocEdge {E : List (Nat × Nat)} {s c c' : Nat} {d : Nat}
    (h : HasPath E s c d) (h' : (c, c') ∈ E) : HasPath E s c' (d + 1) := by
  induction h with
  | refl s => exact HasPath.step h' (HasPath.refl c')
  | step hc htail ih => exact HasPath.step hc (ih h')

theorem HasPath.of_swap {E : List (Nat × Nat)} {s t d : Nat}
    (h : HasPath (E.map Prod.swap) s t d) : HasPath E t s d := by
  induction h with
  | refl s => exact HasPath.refl s
  | step hc htail ih =>
    obtain ⟨p, hp, hps⟩ := List.mem_map.mp hc
    obtain ⟨a, b⟩ := p
    simp only [Prod.swap_prod_mk, Prod.mk.injEq] at hps
    obtain ⟨rfl, rfl⟩ := hps
    exact ih.snocEdge hp

theorem decideDirection_cases (op : TransitivePath) :
    decideDirection op = (op.lhs, op.rhs) ∨ decideDirection op = (op.rhs, op.lhs) := by
  rw [decideDirection]
  by_cases h1 : op.lhs.isBoundVariable <;> by_cases h2 : op.rhs.isBoundVariable <;>
    by_cases h3 : op.rhs.isVariable <;> simp [h1, h2, h3]

theorem fillRows_sound (hull : Map) (sc tc w : Nat) (rows : List (List Nat))
    (row : List Nat) (P : Nat → Nat → Prop)
    (hhull : ∀ k t, t ∈ hullSetOf hull k → P k t)
    (hgood : goodMap hull)
    (h01 : (sc = 0 ∧ tc = 1) ∨ (sc = 1 ∧ tc = 0))
    (hw : 2 ≤ w)
    (hrows : rows = TransitivePath.fillTableWithHull hull sc tc w ∨
      ∃ nodes table skip,
        rows = TransitivePath.fillTableWithHullBound hull nodes sc tc table skip w)
    (hrow : row ∈ rows) :
    P (cell row sc) (cell row tc) := by
  have hne : sc ≠ tc := by rcases h01 with ⟨rfl, rfl⟩ | ⟨rfl, rfl⟩ <;> simp
  have hsc : sc < w := by rcases h01 with ⟨rfl, _⟩ | ⟨rfl, _⟩ <;> omega
  have htc : tc < w := by rcases h01 with ⟨_, rfl⟩ | ⟨_, rfl⟩ <;> omega
  rcases hrows with rfl | ⟨nodes, table, skip, rfl⟩
  · obtain ⟨kv, t, hkv, ht, hrow'⟩ := mem_fillTableWithHull hrow
    rw [hrow', cell_pairRow_start _ _ hne hsc, cell_pairRow_target _ _ htc]
    refine hhull kv.1 t ?_
    rw [hullSetOf, lookupMap_eq_some_of_mem hgood.1 (by exact hkv)]
    exact ht
  · obtain ⟨node, srow, ts, t, hlk, ht, _, _, hrow'⟩ := mem_fillTableWithHullBound hrow
    have hsclt : sc < 2 := by rcases h01 with ⟨rfl, _⟩ | ⟨rfl, _⟩ <;> omega
    have htclt : tc < 2 := by rcases h01 with ⟨_, rfl⟩ | ⟨_, rfl⟩ <;> omega
    rw [hrow', cell_copyColumns_lt _ _ _ _ hsclt, cell_copyColumns_lt _ _ _ _ htclt,
      cell_pairRow_start _ _ hne hsc, cell_pairRow_target _ _ htc]
    refine hhull node t ?_
    rw [hullSetOf, hlk]
    exact ht

theorem computeResult_sound_core (op : TransitivePath) (rows : List (List Nat))
    (row : List Nat)
    (h0 : op.lhs.outputCol = 0) (h1 : op.rhs.outputCol = 1) (hw : 2 ≤ op.resultWidth)
    (hull : Map)
    (hhullsound : ∀ k t, t ∈ hullSetOf hull k →
      (∃ d, op.minDist ≤ d ∧ d ≤ op.maxDist ∧ HasPath (decidedEdges op) k t d) ∧
      targetOk (targetFilter (decideDirection op).2) t = true)
    (hgood : goodMap hull)
    (hrows : rows = TransitivePath.fillTableWithHull hull
        (decideDirection op).1.outputCol (decideDirection op).2.outputCol op.resultWidth ∨
      ∃ nodes table skip, rows = TransitivePath.fillTableWithHullBound hull nodes
        (decideDirection op).1.outputCol (decideDirection op).2.outputCol table skip
        op.resultWidth)
    (hrow : row ∈ rows) :
    (∃ d, op.minDist ≤ d ∧ d ≤ op.maxDist ∧
      HasPath (edgePairs op) (cell row 0) (cell row 1) d) ∧
    (∀ x, (decideDirection op).2.value = SideValue.id x →
      cell row (decideDirection op).2.outputCol = x) := by
  have hdd := decideDirection_cases op
  have h01 : ((decideDirection op).1.outputCol = 0 ∧ (decideDirection op).2.outputCol = 1) ∨
      ((decideDirection op).1.outputCol = 1 ∧ (decideDirection op).2.outputCol = 0) := by
    rcases hdd with h | h <;> rw [h] <;> simp [h0, h1]
  have hP := fillRows_sound hull (decideDirection op).1.outputCol
    (decideDirection op).2.outputCol op.resultWidth rows row
    (fun k t =>
      (∃ d, op.minDist ≤ d ∧ d ≤ op.maxDist ∧ HasPath (decidedEdges op) k t d) ∧
      targetOk (targetFilter (decideDirection op).2) t = true)
    hhullsound hgood h01 hw hrows hrow
  constructor
  · rcases hdd with h | h
    · have hsc : (decideDirection op).1.outputCol = 0 := by rw [h, h0]
      have htc : (decideDirection op).2.outputCol = 1 := by rw [h, h1]
      rw [hsc, htc] at hP
      have hde : decidedEdges op = edgePairs op := by
        rw [decidedEdges, edgePairs, h]
      rw [hde] at hP
      exact hP.1
    · have hsc : (decideDirection op).1.outputCol = 1 := by rw [h, h1]
      have htc : (decideDirection op).2.outputCol = 0 := by rw [h, h0]
      rw [hsc, htc] at hP
      have hde : decidedEdges op = (edgePairs op).map Prod.swap := by
        rw [decidedEdges, edgePairs, h, List.zip_swap]
      rw [hde] at hP
      obtain ⟨⟨d, hd1, hd2, hpath⟩, _⟩ := hP
      exact ⟨d, hd1, hd2, hpath.of_swap⟩
  · intro x hx
    have := hP.2
    rw [targetFilter, hx] at this
    simpa [targetOk] using this

/-- C1: for every operator configuration and edge relation, every pair
written to the output table by `computeResult` (of either back-end) is
connected, from its left output cell to its right output cell, by a path
whose edges all occur in the edge relation and whose length `d` satisfies
`minDist ≤ d ≤ maxDist`; when the decided target side carries a fixed id,
the emitted target cell equals that id. -/
theorem C1_computeResult_sound (op : TransitivePath) (rows : List (List Nat)) (row : List Nat)
    (h0 : op.lhs.outputCol = 0) (h1 : op.rhs.outputCol = 1) (hw : 2 ≤ op.resultWidth)
    (hres : TransitivePathFallback.computeResult op = Except.ok rows ∨
      TransitivePathBinSearch.computeResult op = Except.ok rows)
    (hrow : row ∈ rows) :
    (∃ d, op.minDist ≤ d ∧ d ≤ op.maxDist ∧
      HasPath (edgePairs op) (cell row 0) (cell row 1) d) ∧
    (∀ x, (decideDirection op).2.value = SideValue.id x →
      cell row (decideDirection op).2.outputCol = x) := by
  rcases hres with hok | hok
  · simp only [TransitivePathFallback.computeResult] at hok
    split at hok
    · exact absurd hok (by simp)
    · split at hok
      next tree col heq =>
        rw [Except.ok.injEq] at hok
        refine computeResult_sound_core op rows row h0 h1 hw _ ?_ ?_
          (Or.inr ⟨_, _, _, hok.symm⟩) hrow
        · intro k t hmem
          obtain ⟨⟨d, hd1, hd2, hr⟩, ht⟩ := transitiveHullF_sound hmem
          exact ⟨⟨d, hd1, hd2, ReachN_hasPath (fun n c h => successorsF_mem h) hr⟩, ht⟩
        · exact transitiveHullF_goodMap ..
      next heq =>
        rw [Except.ok.injEq] at hok
        refine computeResult_sound_core op rows row h0 h1 hw _ ?_ ?_ (Or.inl hok.symm) hrow
        · intro k t hmem
          obtain ⟨⟨d, hd1, hd2, hr⟩, ht⟩ := transitiveHullF_sound hmem
          exact ⟨⟨d, hd1, hd2, ReachN_hasPath (fun n c h => successorsF_mem h) hr⟩, ht⟩
        · exact transitiveHullF_goodMap ..
  · simp only [TransitivePathBinSearch.computeResult] at hok
    split at hok
    · exact absurd hok (by simp)
    · split at hok
      next tree col heq =>
        rw [Except.ok.injEq] at hok
        refine computeResult_sound_core op rows row h0 h1 hw _ ?_ ?_
          (Or.inr ⟨_, _, _, hok.symm⟩) hrow
        · intro k t hmem
          obtain ⟨⟨d, hd1, hd2, hr⟩, ht⟩ := transitiveHullB_sound hmem
          refine ⟨⟨d, hd1, hd2, ReachN_hasPath (fun n c h => ?_) hr⟩, ht⟩
          exact mem_sortedEdgeList.mp (successorsB_mem (List.mem_reverse.mp h))
        · exact transitiveHullB_goodMap ..
      next heq =>
        rw [Except.ok.injEq] at hok
        refine computeResult_sound_core op rows row h0 h1 hw _ ?_ ?_ (Or.inl hok.symm) hrow
        · intro k t hmem
          obtain ⟨⟨d, hd1, hd2, hr⟩, ht⟩ := transitiveHullB_sound hmem
          refine ⟨⟨d, hd1, hd2, ReachN_hasPath (fun n c h => ?_) hr⟩, ht⟩
          exact mem_sortedEdgeList.mp (successorsB_mem (List.mem_reverse.mp h))
        · exact transitiveHullB_goodMap ..

theorem C1_witness :
    ((∃ d, (mkTransitivePath ⟨[[1, 2]], [], []⟩ ⟨none, 0, .var 0, 0⟩ ⟨none, 1, .var 1, 0⟩
        1 1).minDist ≤ d ∧
      d ≤ (mkTransitivePath ⟨[[1, 2]], [], []⟩ ⟨none, 0, .var 0, 0⟩ ⟨none, 1, .var 1, 0⟩
        1 1).maxDist ∧
      HasPath (edgePairs (mkTransitivePath ⟨[[1, 2]], [], []⟩ ⟨none, 0, .var 0, 0⟩
        ⟨none, 1, .var 1, 0⟩ 1 1)) (cell [1, 2] 0) (cell [1, 2] 1) d) ∧
    (∀ x, (decideDirection (mkTransitivePath ⟨[[1, 2]], [], []⟩ ⟨none, 0, .var 0, 0⟩
        ⟨none, 1, .var 1, 0⟩ 1 1)).2.value = SideValue.id x →
      cell [1, 2] ((decideDirection (mkTransitivePath ⟨[[1, 2]], [], []⟩ ⟨none, 0, .var 0, 0⟩
        ⟨none, 1, .var 1, 0⟩ 1 1)).2.outputCol) = x)) := by
  refine C1_computeResult_sound _ [[1, 2]] [1, 2] rfl rfl (by norm_num [mkTransitivePath])
    (Or.inl ?_) (by simp)
  simp [TransitivePathFallback.computeResult, TransitivePathFallback.transitiveHull,
    TransitivePathFallback.setupEdgesMap, TransitivePathFallback.successors,
    dfsGo, mkTransitivePath, decideDirection, unboundStartNodes, targetFilter,
    TransitivePath.fillTableWithHull, insertIntoMap, lookupMap, containsKey,
    column, cell, setCell, emptyRow, targetOk, hullSetOf, keysOf,
    TransitivePathSide.isVariable, TransitivePathSide.isBoundVariable,
    TransitivePath.isBoundOrId]

/-- C2: for every operator with `minDist = 0` whose two sides are free
variables and where neither side is bound to a feeding sub-plan,
`computeResult` of both back-ends fails with the unsupported-empty-path
error and surfaces no result table. -/
theorem C2_empty_path_rejected (op : TransitivePath)
    (hmin : op.minDist = 0)
    (hl : op.lhs.isVariable = true) (hr : op.rhs.isVariable = true)
    (hbl : op.lhs.treeAndCol = none) (hbr : op.rhs.treeAndCol = none) :
    TransitivePathFallback.computeResult op = .error .unsupportedEmptyPath ∧
    TransitivePathBinSearch.computeResult op = .error .unsupportedEmptyPath := by
  have hguard : op.minDist = 0 ∧ ¬ op.isBoundOrId ∧ op.lhs.isVariable ∧ op.rhs.isVariable := by
    refine ⟨hmin, ?_, hl, hr⟩
    simp [TransitivePath.isBoundOrId, TransitivePathSide.isBoundVariable, hbl, hbr, hl, hr]
  constructor
  · rw [TransitivePathFallback.computeResult, if_pos hguard]
  · rw [TransitivePathBinSearch.computeResult, if_pos hguard]

theorem C2_witness :
    TransitivePathFallback.computeResult
      (mkTransitivePath ⟨[[1, 2]], [], []⟩ ⟨none, 0, .var 0, 0⟩ ⟨none, 1, .var 1, 0⟩ 0 5)
      = .error .unsupportedEmptyPath ∧
    TransitivePathBinSearch.computeResult
      (mkTransitivePath ⟨[[1, 2]], [], []⟩ ⟨none, 0, .var 0, 0⟩ ⟨none, 1, .var 1, 0⟩ 0 5)
      = .error .unsupportedEmptyPath :=
  C2_empty_path_rejected _ rfl rfl rfl rfl rfl

/-- C8 counterexample: with both sides fixed ids and no feeding plans, the
direction choice makes the right side the start side, not the left side as
the claim states. -/
theorem C8_counterexample :
    (decideDirection (mkTransitivePath ⟨[[1, 2]], [], []⟩ ⟨none, 0, .id 1, 0⟩
      ⟨none, 1, .id 2, 0⟩ 1 3)).1 =
      (mkTransitivePath ⟨[[1, 2]], [], []⟩ ⟨none, 0, .id 1, 0⟩ ⟨none, 1, .id 2, 0⟩ 1 3).rhs ∧
    (decideDirection (mkTransitivePath ⟨[[1, 2]], [], []⟩ ⟨none, 0, .id 1, 0⟩
      ⟨none, 1, .id 2, 0⟩ 1 3)).1 ≠
      (mkTransitivePath ⟨[[1, 2]], [], []⟩ ⟨none, 0, .id 1, 0⟩ ⟨none, 1, .id 2, 0⟩ 1 3).lhs := by
  constructor <;> decide

/-- C8 (amended): the direction chooser selects the start side by this
priority, first match winning: a bound left side becomes start; otherwise a
right side that is bound or a fixed id becomes start; otherwise the left
side becomes start.  In particular, when both sides are fixed ids and
neither is bound, the right side becomes start. -/
theorem C8_direction_priority (op : TransitivePath) :
    (op.lhs.isBoundVariable = true → decideDirection op = (op.lhs, op.rhs)) ∧
    (op.lhs.isBoundVariable = false →
      (op.rhs.isBoundVariable = true ∨ op.rhs.isVariable = false) →
      decideDirection op = (op.rhs, op.lhs)) ∧
    (op.lhs.isBoundVariable = false → op.rhs.isBoundVariable = false →
      op.rhs.isVariable = true → decideDirection op = (op.lhs, op.rhs)) := by
  refine ⟨fun h => by simp [decideDirection, h], fun h1 h2 => ?_, fun h1 h2 h3 => by
    simp [decideDirection, h1, h2, h3]⟩
  rcases h2 with h2 | h2 <;> simp [decideDirection, h1, h2]

theorem C8_witness :
    decideDirection (mkTransitivePath ⟨[[1, 2]], [], []⟩ ⟨none, 0, .id 1, 0⟩
      ⟨none, 1, .id 2, 0⟩ 1 3) =
      ((mkTransitivePath ⟨[[1, 2]], [], []⟩ ⟨none, 0, .id 1, 0⟩ ⟨none, 1, .id 2, 0⟩ 1 3).rhs,
       (mkTransitivePath ⟨[[1, 2]], [], []⟩ ⟨none, 0, .id 1, 0⟩ ⟨none, 1, .id 2, 0⟩ 1 3).lhs) :=
  (C8_direction_priority _).2.1 rfl (Or.inr rfl)

theorem bindFold_preserves (l : List (Nat × Nat)) (inputCol : Nat) (p : TransitivePath) :
    (l.foldl (fun p vc =>
      if vc.2 = inputCol then p
      else { p with
             variableColumns := upsertVarCol p.variableColumns vc.1
               (vc.2 + (if inputCol < vc.2 then 1 else 2))
             resultWidth := p.resultWidth + 1 }) p).subtree = p.subtree ∧
    (l.foldl (fun p vc =>
      if vc.2 = inputCol then p
      else { p with
             variableColumns := upsertVarCol p.variableColumns vc.1
               (vc.2 + (if inputCol < vc.2 then 1 else 2))
             resultWidth := p.resultWidth + 1 }) p).lhs = p.lhs ∧
    (l.foldl (fun p vc =>
      if vc.2 = inputCol then p
      else { p with
             variableColumns := upsertVarCol p.variableColumns vc.1
               (vc.2 + (if inputCol < vc.2 then 1 else 2))
             resultWidth := p.resultWidth + 1 }) p).rhs = p.rhs ∧
    (l.foldl (fun p vc =>
      if vc.2 = inputCol then p
      else { p with
             variableColumns := upsertVarCol p.variableColumns vc.1
               (vc.2 + (if inputCol < vc.2 then 1 else 2))
             resultWidth := p.resultWidth + 1 }) p).minDist = p.minDist ∧
    (l.foldl (fun p vc =>
      if vc.2 = inputCol then p
      else { p with
             variableColumns := upsertVarCol p.variableColumns vc.1
               (vc.2 + (if inputCol < vc.2 then 1 else 2))
             resultWidth := p.resultWidth + 1 }) p).maxDist = p.maxDist := by
  induction l generalizing p with
  | nil => exact ⟨rfl, rfl, rfl, rfl, rfl⟩
  | cons vc l ih =>
    rw [List.foldl_cons]
    by_cases h : vc.2 = inputCol
    · rw [if_pos h]
      exact ih p
    · rw [if_neg h]
      exact ih _

/-- C9: `bindLeftSide(plan, col)` and `bindRightSide(plan, col)` each return
a new operator whose corresponding side is bound to the (sort-enforced)
given plan and column, which shares the underlying edge sub-plan and keeps
the length window; the receiver they are invoked on is left completely
unchanged (the second component of the modelled call is the receiver's
state after the `const` call). -/
theorem C9_bind_sides_pure (op : TransitivePath) (plan : QueryExecutionTree) (col : Nat) :
    (bindLeftSide op plan col).2 = op ∧
    (bindRightSide op plan col).2 = op ∧
    (bindLeftSide op plan col).1.lhs.treeAndCol = some (createSortedTree plan [col], col) ∧
    (bindLeftSide op plan col).1.subtree = op.subtree ∧
    (bindLeftSide op plan col).1.minDist = op.minDist ∧
    (bindLeftSide op plan col).1.maxDist = op.maxDist ∧
    (bindLeftSide op plan col).1.rhs = { op.rhs with outputCol := 1 } ∧
    (bindRightSide op plan col).1.rhs.treeAndCol = some (createSortedTree plan [col], col) ∧
    (bindRightSide op plan col).1.subtree = op.subtree ∧
    (bindRightSide op plan col).1.minDist = op.minDist ∧
    (bindRightSide op plan col).1.maxDist = op.maxDist ∧
    (bindRightSide op plan col).1.lhs = { op.lhs with outputCol := 0 } := by
  have hL := bindFold_preserves (createSortedTree plan [col]).varCols col
    { mkTransitivePath op.subtree op.lhs op.rhs op.minDist op.maxDist with
      lhs := { (mkTransitivePath op.subtree op.lhs op.rhs op.minDist op.maxDist).lhs with
        treeAndCol := some (createSortedTree plan [col], col) } }
  have hR := bindFold_preserves (createSortedTree plan [col]).varCols col
    { mkTransitivePath op.subtree op.lhs op.rhs op.minDist op.maxDist with
      rhs := { (mkTransitivePath op.subtree op.lhs op.rhs op.minDist op.maxDist).rhs with
        treeAndCol := some (createSortedTree plan [col], col) } }
  refine ⟨rfl, rfl, ?_, ?_, ?_, ?_, ?_, ?_, ?_, ?_, ?_, ?_⟩
  · rw [show (bindLeftSide op plan col).1.lhs =
      { (mkTransitivePath op.subtree op.lhs op.rhs op.minDist op.maxDist).lhs with
        treeAndCol := some (createSortedTree plan [col], col) } from hL.2.1]
  · exact hL.1
  · exact hL.2.2.2.1
  · exact hL.2.2.2.2
  · exact hL.2.2.1
  · rw [show (bindRightSide op plan col).1.rhs =
      { (mkTransitivePath op.subtree op.lhs op.rhs op.minDist op.maxDist).rhs with
        treeAndCol := some (createSortedTree plan [col], col) } from hR.2.2.1]
  · exact hR.1
  · exact hR.2.2.2.1
  · exact hR.2.2.2.2
  · exact hR.2.1

/-- C10: in both DFS back-ends, every key of the map returned by
`transitiveHull` is an element of the start-node vector passed in. -/
theorem C10_hull_keys_subset (edges : Map) (E : List (Nat × Nat)) (minD maxD : Nat)
    (startNodes : List Nat) (target : Option Nat) (k : Nat) :
    (k ∈ keysOf (TransitivePathFallback.transitiveHull edges minD maxD startNodes target) →
      k ∈ startNodes) ∧
    (k ∈ keysOf (TransitivePathBinSearch.transitiveHull E minD maxD startNodes target) →
      k ∈ startNodes) :=
  ⟨transitiveHullF_keys, transitiveHullB_keys⟩

theorem C10_witness : 1 ∈ ([1] : List Nat) := by
  refine (C10_hull_keys_subset [(1, [2])] [(1, 2)] 1 2 [1] none 1).1 ?_
  simp [TransitivePathFallback.transitiveHull, TransitivePathFallback.successors, dfsGo,
    insertIntoMap, lookupMap, containsKey, targetOk, hullSetOf, keysOf]

/-- C4 counterexample: on E = [(1,2),(2,3),(3,4),(4,2),(2,5)] with
`minDist = maxDist = 2` and both sides free, `computeResult` emits the pair
(1,5) — absent from the claimed set — and does not emit (2,2), which the
claimed set contains. -/
theorem C4_counterexample :
    TransitivePathFallback.computeResult
      (mkTransitivePath ⟨[[1, 2], [2, 3], [3, 4], [4, 2], [2, 5]], [], []⟩
        ⟨none, 0, .var 0, 0⟩ ⟨none, 1, .var 1, 0⟩ 2 2)
      = .ok [[1, 3], [1, 5], [2, 4], [3, 2], [4, 3], [4, 5]] ∧
    ((1, 5) ∈ rowPairs [[1, 3], [1, 5], [2, 4], [3, 2], [4, 3], [4, 5]] ∧
      (1, 5) ∉ [(1, 3), (2, 4), (3, 2), (4, 3), (2, 2)]) ∧
    ((2, 2) ∈ [(1, 3), (2, 4), (3, 2), (4, 3), (2, 2)] ∧
      (2, 2) ∉ rowPairs [[1, 3], [1, 5], [2, 4], [3, 2], [4, 3], [4, 5]]) := by
  refine ⟨?_, by decide, by decide⟩
  simp [TransitivePathFallback.computeResult, TransitivePathFallback.transitiveHull,
    TransitivePathFallback.setupEdgesMap, TransitivePathFallback.successors,
    dfsGo, mkTransitivePath, decideDirection, unboundStartNodes, targetFilter,
    TransitivePath.fillTableWithHull, insertIntoMap, lookupMap, containsKey,
    column, cell, setCell, emptyRow, targetOk, hullSetOf, keysOf,
    TransitivePathSide.isVariable, TransitivePathSide.isBoundVariable,
    TransitivePath.isBoundOrId]

/-- C4 (amended): for the edge relation E = [(1,2),(2,3),(3,4),(4,2),(2,5)]
with `minDist = maxDist = 2` and both sides free variables, the set of
(left, right) pairs emitted by `computeResult` equals
((1,3),(1,5),(2,4),(3,2),(4,3),(4,5)). -/
theorem C4_exact_length_two :
    TransitivePathFallback.computeResult
      (mkTransitivePath ⟨[[1, 2], [2, 3], [3, 4], [4, 2], [2, 5]], [], []⟩
        ⟨none, 0, .var 0, 0⟩ ⟨none, 1, .var 1, 0⟩ 2 2)
      = .ok [[1, 3], [1, 5], [2, 4], [3, 2], [4, 3], [4, 5]] ∧
    (∀ p ∈ rowPairs [[1, 3], [1, 5], [2, 4], [3, 2], [4, 3], [4, 5]],
      p ∈ [(1, 3), (1, 5), (2, 4), (3, 2), (4, 3), (4, 5)]) ∧
    (∀ p ∈ [(1, 3), (1, 5), (2, 4), (3, 2), (4, 3), (4, 5)],
      p ∈ rowPairs [[1, 3], [1, 5], [2, 4], [3, 2], [4, 3], [4, 5]]) := by
  refine ⟨?_, by decide, by decide⟩
  simp [TransitivePathFallback.computeResult, TransitivePathFallback.transitiveHull,
    TransitivePathFallback.setupEdgesMap, TransitivePathFallback.successors,
    dfsGo, mkTransitivePath, decideDirection, unboundStartNodes, targetFilter,
    TransitivePath.fillTableWithHull, insertIntoMap, lookupMap, containsKey,
    column, cell, setCell, emptyRow, targetOk, hullSetOf, keysOf,
    TransitivePathSide.isVariable, TransitivePathSide.isBoundVariable,
    TransitivePath.isBoundOrId]

theorem hullFold_nil_hull (succ : Nat → List Nat) (minD maxD : Nat) (target : Option Nat)
    (cs0 : Nat → List Nat) (d0 : Nat)
    (hempty : ∀ s st, (dfsGo succ minD maxD target s (cs0 s) d0 st).hull = st.hull)
    (hmin : 1 ≤ minD) (startNodes : List Nat) :
    startNodes.foldl (fun hull s =>
        if containsKey hull s then hull
        else (dfsGo succ minD maxD target s (cs0 s) d0
          ⟨[], if minD = 0 ∧ targetOk target s then insertIntoMap hull s s else hull⟩).hull)
      [] = [] := by
  induction startNodes with
  | nil => rfl
  | cons s ss ih =>
    rw [List.foldl_cons]
    have hb : (if containsKey ([] : Map) s then ([] : Map)
        else (dfsGo succ minD maxD target s (cs0 s) d0
          ⟨[], if minD = 0 ∧ targetOk target s then insertIntoMap [] s s else []⟩).hull) = [] := by
      rw [if_neg (by simp [containsKey, lookupMap]),
        if_neg (by rintro ⟨h0, _⟩; omega), hempty]
    rw [hb]
    exact ih

theorem transitiveHullF_nil (minD maxD : Nat) (target : Option Nat) (startNodes : List Nat)
    (hmin : 1 ≤ minD) :
    TransitivePathFallback.transitiveHull [] minD maxD startNodes target = [] := by
  rw [TransitivePathFallback.transitiveHull]
  exact hullFold_nil_hull _ minD maxD target _ 1
    (fun s st => by simp [TransitivePathFallback.successors, lookupMap, dfsGo]) hmin startNodes

theorem transitiveHullB_nil (minD maxD : Nat) (target : Option Nat) (startNodes : List Nat)
    (hmin : 1 ≤ minD) :
    TransitivePathBinSearch.transitiveHull [] minD maxD startNodes target = [] := by
  rw [TransitivePathBinSearch.transitiveHull]
  refine hullFold_nil_hull _ minD maxD target (fun s => [s]) 0 (fun s st => ?_) hmin startNodes
  by_cases hg : 0 ≤ maxD ∧ s ∉ st.marks
  · simp [dfsGo, hg, show ¬ minD ≤ 0 by omega, TransitivePathBinSearch.successors]
  · have hs : s ∈ st.marks := by
      by_contra hs
      exact hg ⟨Nat.zero_le _, hs⟩
    simp [dfsGo, hs]

theorem decideDirection_eq_lr {op : TransitivePath} (h1 : op.lhs.isBoundVariable = false)
    (h2 : op.rhs.isBoundVariable = false) (h3 : op.rhs.isVariable = true) :
    decideDirection op = (op.lhs, op.rhs) := by
  simp [decideDirection, h1, h2, h3]

/-- C5 counterexample: with an empty edge relation, `minDist = 0`, the left
side `Fixed(5)` and the right side a free variable, `computeResult` emits
the pair (5,5) even though 5 does not appear in the (empty) edge relation —
the output is not empty. -/
theorem C5_counterexample :
    TransitivePathFallback.computeResult
      (mkTransitivePath ⟨[], [], []⟩ ⟨none, 0, .id 5, 0⟩ ⟨none, 1, .var 1, 0⟩ 0 8)
      = .ok [[5, 5]] ∧
    ([[5, 5]] : List (List Nat)) ≠ [] ∧
    edgePairs (mkTransitivePath ⟨[], [], []⟩ ⟨none, 0, .id 5, 0⟩ ⟨none, 1, .var 1, 0⟩ 0 8)
      = [] := by
  refine ⟨?_, by decide, rfl⟩
  simp [TransitivePathFallback.computeResult, TransitivePathFallback.transitiveHull,
    TransitivePathFallback.setupEdgesMap, TransitivePathFallback.successors,
    dfsGo, mkTransitivePath, decideDirection, unboundStartNodes, targetFilter,
    TransitivePath.fillTableWithHull, insertIntoMap, lookupMap, containsKey,
    column, cell, setCell, emptyRow, targetOk, hullSetOf, keysOf,
    TransitivePathSide.isVariable, TransitivePathSide.isBoundVariable,
    TransitivePath.isBoundOrId]

/-- C5 (amended): when the edge relation is empty, `computeResult` of both
back-ends emits no rows whenever `minDist ≥ 1`; with `minDist = 0`, the
left side `Fixed(x)` and the right side a free unbound variable, the single
pair (x,x) is emitted — regardless of whether `x` appears in the edge
relation. -/
theorem C5_empty_edge_relation (op : TransitivePath) (x : Nat)
    (hsub : op.subtree.rows = []) :
    (1 ≤ op.minDist →
      (∀ rows, TransitivePathFallback.computeResult op = .ok rows → rows = []) ∧
      (∀ rows, TransitivePathBinSearch.computeResult op = .ok rows → rows = [])) ∧
    (op.minDist = 0 → op.lhs.value = SideValue.id x → op.lhs.treeAndCol = none →
      op.rhs.isVariable = true → op.rhs.treeAndCol = none →
      op.lhs.outputCol = 0 → op.rhs.outputCol = 1 → op.resultWidth = 2 →
      TransitivePathFallback.computeResult op = .ok [[x, x]] ∧
      TransitivePathBinSearch.computeResult op = .ok [[x, x]]) := by
  constructor
  · intro hmin
    have heF : TransitivePathFallback.setupEdgesMap op.subtree.rows
        (decideDirection op).1.subCol (decideDirection op).2.subCol = [] := by
      rw [hsub]; rfl
    have heB : TransitivePathBinSearch.sortedEdgeList op.subtree.rows
        (decideDirection op).1.subCol (decideDirection op).2.subCol = [] := by
      rw [hsub]
      simp [TransitivePathBinSearch.sortedEdgeList, column]
    constructor
    · intro rows hok
      simp only [TransitivePathFallback.computeResult] at hok
      split at hok
      · exact absurd hok (by simp)
      · rw [heF] at hok
        split at hok
        next tree col heq =>
          rw [transitiveHullF_nil _ _ _ _ hmin, fillTableWithHullBound_empty] at hok
          exact (Except.ok.injEq .. ▸ hok).symm
        next heq =>
          rw [transitiveHullF_nil _ _ _ _ hmin] at hok
          exact (Except.ok.injEq .. ▸ hok).symm
    · intro rows hok
      simp only [TransitivePathBinSearch.computeResult] at hok
      split at hok
      · exact absurd hok (by simp)
      · rw [heB] at hok
        split at hok
        next tree col heq =>
          rw [transitiveHullB_nil _ _ _ _ hmin, fillTableWithHullBound_empty] at hok
          exact (Except.ok.injEq .. ▸ hok).symm
        next heq =>
          rw [transitiveHullB_nil _ _ _ _ hmin] at hok
          exact (Except.ok.injEq .. ▸ hok).symm
  · intro hmin0 hlv hbl hrv hbr h0 h1 hwidth
    have hdd : decideDirection op = (op.lhs, op.rhs) := decideDirection_eq_lr
      (by simp [TransitivePathSide.isBoundVariable, hbl])
      (by simp [TransitivePathSide.isBoundVariable, hbr]) hrv
    obtain ⟨v, hv⟩ : ∃ v, op.rhs.value = SideValue.var v := by
      revert hrv
      rw [TransitivePathSide.isVariable]
      cases op.rhs.value <;> simp
    have hguard : ¬ (op.minDist = 0 ∧ ¬ op.isBoundOrId ∧ op.lhs.isVariable ∧
        op.rhs.isVariable) := by
      rintro ⟨_, hb, hlvar, _⟩
      rw [TransitivePathSide.isVariable, hlv] at hlvar
      simp at hlvar
    constructor
    · rw [TransitivePathFallback.computeResult, if_neg hguard]
      simp only [hdd, hbl, hsub, hlv, hv, h0, h1, hwidth, hmin0]
      simp [TransitivePathFallback.setupEdgesMap, TransitivePathFallback.transitiveHull,
        TransitivePathFallback.successors, unboundStartNodes, targetFilter, dfsGo,
        containsKey, lookupMap, targetOk, insertIntoMap, hullSetOf, hv, hlv,
        TransitivePath.fillTableWithHull, emptyRow, setCell, column, cell]
    · rw [TransitivePathBinSearch.computeResult, if_neg hguard]
      simp only [hdd, hbl, hsub, hlv, hv, h0, h1, hwidth, hmin0]
      simp [TransitivePathBinSearch.sortedEdgeList, TransitivePathBinSearch.transitiveHull,
        TransitivePathBinSearch.successors, unboundStartNodes, targetFilter, dfsGo,
        containsKey, lookupMap, targetOk, insertIntoMap, hullSetOf, Nat.zero_le, hv, hlv,
        TransitivePath.fillTableWithHull, emptyRow, setCell, column, cell]

theorem C5_witness :
    TransitivePathFallback.computeResult
      (mkTransitivePath ⟨[], [], []⟩ ⟨none, 0, .id 5, 0⟩ ⟨none, 1, .var 1, 0⟩ 0 8)
      = .ok [[5, 5]] ∧
    TransitivePathBinSearch.computeResult
      (mkTransitivePath ⟨[], [], []⟩ ⟨none, 0, .id 5, 0⟩ ⟨none, 1, .var 1, 0⟩ 0 8)
      = .ok [[5, 5]] :=
  (C5_empty_edge_relation
      (mkTransitivePath ⟨[], [], []⟩ ⟨none, 0, .id 5, 0⟩ ⟨none, 1, .var 1, 0⟩ 0 8) 5
      rfl).2 rfl rfl rfl rfl rfl rfl rfl rfl

theorem fillTableWithHull_nodup (hull : Map) (sc tc w : Nat) (hgood : goodMap hull)
    (hne : sc ≠ tc) (hsc : sc < w) (htc : tc < w) :
    (TransitivePath.fillTableWithHull hull sc tc w).Nodup := by
  rw [TransitivePath.fillTableWithHull, List.nodup_flatMap]
  constructor
  · intro kv hkv
    refine ((hgood.2 kv hkv).1).map ?_
    intro t t' hrow
    have := congrArg (fun r => cell r tc) hrow
    simpa [cell_pairRow_target _ _ htc] using this
  · have hpw : hull.Pairwise (fun a b => a.1 ≠ b.1) := by
      have h := hgood.1
      rw [keysOf] at h
      exact List.pairwise_map.mp h
    refine hpw.imp ?_
    intro a b hab row hrowa hrowb
    obtain ⟨t, ht, hr⟩ := List.mem_map.mp hrowa
    obtain ⟨t', ht', hr'⟩ := List.mem_map.mp hrowb
    apply hab
    have := congrArg (fun r => cell r sc) (hr.trans hr'.symm)
    simpa [cell_pairRow_start _ _ hne hsc] using this

theorem fillTableWithHullBound_nodup (hull : Map) (nodes : List Nat)
    (table : List (List Nat)) (sc tc skip w : Nat) (hgood : goodMap hull)
    (hne : sc ≠ tc) (hsc : sc < 2) (htc : tc < 2) (hw : 2 ≤ w) (hnodes : nodes.Nodup) :
    (TransitivePath.fillTableWithHullBound hull nodes sc tc table skip w).Nodup := by
  induction nodes generalizing table with
  | nil =>
    rw [TransitivePath.fillTableWithHullBound.eq_def]
    cases table <;> simp
  | cons node nodes ih =>
    cases table with
    | nil =>
      rw [TransitivePath.fillTableWithHullBound.eq_def]
      simp
    | cons srow srows =>
      rw [TransitivePath.fillTableWithHullBound]
      refine List.Nodup.append ?_ (ih srows (List.nodup_cons.mp hnodes).2) ?_
      · match hlk : lookupMap hull node with
        | none => simp [hlk]
        | some ts =>
          simp only [hlk]
          refine ((hgood.2 (node, ts) (mem_of_lookupMap_eq_some hlk)).1).map ?_
          intro t t' h
          have := congrArg (fun r => cell r tc) h
          simpa [cell_copyColumns_lt _ _ _ _ htc,
            cell_pairRow_target _ _ (lt_of_lt_of_le htc hw)] using this
      · intro row hrow1 hrow2
        have hc1 : cell row sc = node := by
          match hlk : lookupMap hull node with
          | none => rw [hlk] at hrow1; simp at hrow1
          | some ts =>
            rw [hlk] at hrow1
            obtain ⟨t, ht, hr⟩ := List.mem_map.mp hrow1
            rw [← hr, cell_copyColumns_lt _ _ _ _ hsc,
              cell_pairRow_start _ _ hne (lt_of_lt_of_le hsc hw)]
        obtain ⟨node', srow', ts', t', hlk', ht', hn', _, hr'⟩ :=
          mem_fillTableWithHullBound hrow2
        have hc2 : cell row sc = node' := by
          rw [hr', cell_copyColumns_lt _ _ _ _ hsc,
            cell_pairRow_start _ _ hne (lt_of_lt_of_le hsc hw)]
        exact (List.nodup_cons.mp hnodes).1 (by rw [show node = node' from hc1.symm.trans hc2]; exact hn')

/-- C7 counterexample: with the left side bound to a sub-result containing
the duplicate rows [7,1] and [7,1] (join column 1) over the edge relation
[(1,2)] with `minDist = maxDist = 1`, the materializer emits the triple
(1,2,7) twice. -/
theorem C7_counterexample :
    TransitivePathFallback.computeResult
      ⟨⟨[[1, 2]], [], []⟩, ⟨some (⟨[[7, 1], [7, 1]], [], []⟩, 1), 0, .var 0, 0⟩,
        ⟨none, 1, .var 1, 1⟩, 1, 1, 3, []⟩
      = .ok [[1, 2, 7], [1, 2, 7]] ∧
    List.count [1, 2, 7] [[1, 2, 7], [1, 2, 7]] = 2 := by
  refine ⟨?_, by decide⟩
  simp [TransitivePathFallback.computeResult, TransitivePathFallback.transitiveHull,
    TransitivePathFallback.setupEdgesMap, TransitivePathFallback.successors,
    dfsGo, decideDirection, unboundStartNodes, targetFilter,
    TransitivePath.fillTableWithHullBound, TransitivePath.copyColumns,
    TransitivePath.copyColumnsGo, insertIntoMap, lookupMap, containsKey,
    column, cell, setCell, emptyRow, targetOk, hullSetOf, keysOf,
    TransitivePathSide.isVariable, TransitivePathSide.isBoundVariable,
    TransitivePath.isBoundOrId]

/-- C7 (amended): rows are unique in the unbound emission mode; in the
bound emission mode rows are unique whenever the bound side's join-column
values are pairwise distinct.  (A duplicated bound-side row re-emits its
(start, target, propagated-columns) triple once per occurrence.) -/
theorem C7_row_uniqueness (hull : Map) (nodes : List Nat) (table : List (List Nat))
    (sc tc skip w : Nat) (hgood : goodMap hull)
    (h01 : (sc = 0 ∧ tc = 1) ∨ (sc = 1 ∧ tc = 0)) (hw : 2 ≤ w) (hnodes : nodes.Nodup) :
    (TransitivePath.fillTableWithHull hull sc tc w).Nodup ∧
    (TransitivePath.fillTableWithHullBound hull nodes sc tc table skip w).Nodup := by
  have hne : sc ≠ tc := by rcases h01 with ⟨rfl, rfl⟩ | ⟨rfl, rfl⟩ <;> simp
  have hsc : sc < 2 := by rcases h01 with ⟨rfl, _⟩ | ⟨rfl, _⟩ <;> omega
  have htc : tc < 2 := by rcases h01 with ⟨_, rfl⟩ | ⟨_, rfl⟩ <;> omega
  exact ⟨fillTableWithHull_nodup hull sc tc w hgood hne (by omega) (by omega),
    fillTableWithHullBound_nodup hull nodes table sc tc skip w hgood hne hsc htc hw hnodes⟩

theorem C7_witness :
    (TransitivePath.fillTableWithHull [(1, [2, 3])] 0 1 3).Nodup ∧
    (TransitivePath.fillTableWithHullBound [(1, [2, 3])] [1, 2] 0 1
      [[7, 1], [8, 2]] 1 3).Nodup :=
  C7_row_uniqueness [(1, [2, 3])] [1, 2] [[7, 1], [8, 2]] 0 1 1 3
    (by constructor <;> simp [keysOf]) (Or.inl ⟨rfl, rfl⟩) (by omega) (by simp)

/-! ## The literal stack machines agree with the recursion and admit fuel -/

theorem loopB_go (succ : Nat → List Nat) (minD maxD : Nat) (target : Option Nat)
    (start : Nat) (cs : List Nat) (steps : Nat) (st : SearchState) :
    ∃ f, ∀ rest g st',
      loopB succ minD maxD target start g rest
        (dfsGo (fun n => (succ n).reverse) minD maxD target start cs steps st) = some st' →
      loopB succ minD maxD target start (f + g) (cs.map (fun c => (c, steps)) ++ rest) st
        = some st' := by
  induction cs, steps, st using dfsGo.induct (fun n => (succ n).reverse) minD maxD target start
    with
  | case1 steps st =>
    refine ⟨0, fun rest g st' h => ?_⟩
    rw [dfsGo] at h
    simpa using h
  | case2 c cs steps st h st1 ihInner ihInner' ihOuter =>
    obtain ⟨f1, hf1⟩ := ihInner
    obtain ⟨f2, hf2⟩ := ihOuter
    refine ⟨1 + f1 + f2, fun rest g st' hcont => ?_⟩
    rw [dfsGo, dif_pos h] at hcont
    have step2 := hf2 rest g st' hcont
    have step1 := hf1 (cs.map (fun c => (c, steps)) ++ rest) (f2 + g) st' step2
    have harith : 1 + f1 + f2 + g = (f1 + (f2 + g)) + 1 := by omega
    rw [harith]
    show loopB succ minD maxD target start ((f1 + (f2 + g)) + 1)
      ((c, steps) :: (cs.map (fun c => (c, steps)) ++ rest)) st = some st'
    rw [loopB, if_pos h]
    rw [← List.map_reverse]
    exact step1
  | case3 c cs steps st h ih =>
    obtain ⟨f2, hf2⟩ := ih
    refine ⟨1 + f2, fun rest g st' hcont => ?_⟩
    rw [dfsGo, dif_neg h] at hcont
    have step2 := hf2 rest g st' hcont
    have harith : 1 + f2 + g = (f2 + g) + 1 := by omega
    rw [harith]
    show loopB succ minD maxD target start ((f2 + g) + 1)
      ((c, steps) :: (cs.map (fun c => (c, steps)) ++ rest)) st = some st'
    rw [loopB, if_neg h]
    exact step2

theorem loopF_go (edges : Map) (minD maxD : Nat) (target : Option Nat) (start : Nat)
    (cs : List Nat) (depth : Nat) (st : SearchState) :
    ∀ rest : List (List Nat), depth = rest.length + 1 →
    ∃ f, ∀ g st',
      loopF edges minD maxD target start g rest
        (dfsGo (TransitivePathFallback.successors edges) minD maxD target start cs depth st)
        = some st' →
      loopF edges minD maxD target start (f + g) (cs :: rest) st = some st' := by
  induction cs, depth, st using dfsGo.induct (TransitivePathFallback.successors edges) minD
    maxD target start with
  | case1 depth st =>
    intro rest hdep
    refine ⟨1, fun g st' h => ?_⟩
    rw [dfsGo] at h
    rw [show 1 + g = g + 1 by omega]
    exact h
  | case2 c cs depth st h st1 ihInner ihInner' ihOuter =>
    intro rest hdep
    subst hdep
    obtain ⟨f1, hf1⟩ := ihInner (cs :: rest) rfl
    obtain ⟨f2, hf2⟩ := ihOuter rest rfl
    match hlk : lookupMap edges c with
    | some vs =>
      have hsc : TransitivePathFallback.successors edges c = vs := by
        simp [TransitivePathFallback.successors, hlk]
      refine ⟨f1 + f2 + 1, fun g st' hcont => ?_⟩
      rw [dfsGo, dif_pos h] at hcont
      have step2 := hf2 g st' hcont
      have step1 := hf1 (f2 + g) st' step2
      rw [show f1 + f2 + 1 + g = (f1 + (f2 + g)) + 1 by omega]
      show loopF edges minD maxD target start ((f1 + (f2 + g)) + 1) ((c :: cs) :: rest) st
        = some st'
      rw [loopF, if_pos h, hlk]
      rw [hsc] at step1
      exact step1
    | none =>
      have hsc : TransitivePathFallback.successors edges c = [] := by
        simp [TransitivePathFallback.successors, hlk]
      refine ⟨f2 + 1, fun g st' hcont => ?_⟩
      have hnil : ∀ (d : Nat) (s0 : SearchState),
          dfsGo (TransitivePathFallback.successors edges) minD maxD target start [] d s0 = s0 :=
        fun d s0 => by rw [dfsGo]
      rw [dfsGo, dif_pos h] at hcont
      simp only [hsc, hnil] at hcont
      simp only [hsc, hnil] at hf2
      have step2 := hf2 g st' hcont
      rw [show f2 + 1 + g = (f2 + g) + 1 by omega]
      show loopF edges minD maxD target start ((f2 + g) + 1) ((c :: cs) :: rest) st = some st'
      rw [loopF, if_pos h, hlk]
      exact step2
  | case3 c cs depth st h ih =>
    intro rest hdep
    subst hdep
    obtain ⟨f2, hf2⟩ := ih rest rfl
    refine ⟨f2 + 1, fun g st' hcont => ?_⟩
    rw [dfsGo, dif_neg h] at hcont
    have step2 := hf2 g st' hcont
    rw [show f2 + 1 + g = (f2 + g) + 1 by omega]
    show loopF edges minD maxD target start ((f2 + g) + 1) ((c :: cs) :: rest) st = some st'
    rw [loopF, if_neg h]
    exact step2

/-- C6: for every edge relation (any successor function, cycles and
self-loops included) and every length window — `maxDist` saturated or not —
both transitive-hull depth-first stack machines terminate: some finite fuel
makes the literal loop of each back-end return the final state of the
structural recursion; moreover the per-start visited set never records a
node twice, which is what prevents unbounded revisiting. -/
theorem C6_dfs_terminates (edges : Map) (succ : Nat → List Nat) (minD maxD : Nat)
    (target : Option Nat) (s : Nat) (st : SearchState) :
    (∃ f, loopF edges minD maxD target s f [TransitivePathFallback.successors edges s] st
      = some (dfsGo (TransitivePathFallback.successors edges) minD maxD target s
          (TransitivePathFallback.successors edges s) 1 st)) ∧
    (∃ f, loopB succ minD maxD target s f [(s, 0)] st
      = some (dfsGo (fun n => (succ n).reverse) minD maxD target s [s] 0 st)) ∧
    (∀ cs depth, st.marks.Nodup →
      (dfsGo succ minD maxD target s cs depth st).marks.Nodup) := by
  refine ⟨?_, ?_, fun cs depth h => dfsGo_marks_nodup succ minD maxD target s cs depth st h⟩
  · obtain ⟨f, hf⟩ := loopF_go edges minD maxD target s
      (TransitivePathFallback.successors edges s) 1 st [] rfl
    exact ⟨f + 0, hf 0 _ rfl⟩
  · obtain ⟨f, hf⟩ := loopB_go succ minD maxD target s [s] 0 st
    refine ⟨f + 0, ?_⟩
    have h := hf [] 0 _ rfl
    simpa using h

theorem C6_witness :
    (dfsGo (fun _ => []) 0 5 none 3 [3] 0 ⟨[], []⟩).marks.Nodup := by
  refine (C6_dfs_terminates [] (fun _ => []) 0 5 none 3 ⟨[], []⟩).2.2 [3] 0 ?_
  simp

/-- C3 counterexample: on E = [(1,2),(1,3),(2,3),(3,4)] with `minDist = 1`,
`maxDist = 2` and both sides free, the HashMap back-end misses the pair
(1,4) (its search marks node 3 at depth 2 along 1→2→3 and then skips the
marked node 3 at depth 1, never seeing 4 at depth 2), while the BinSearch
back-end emits it: the two multisets of output rows differ. -/
theorem C3_counterexample :
    TransitivePathFallback.computeResult
      (mkTransitivePath ⟨[[1, 2], [1, 3], [2, 3], [3, 4]], [], []⟩
        ⟨none, 0, .var 0, 0⟩ ⟨none, 1, .var 1, 0⟩ 1 2)
      = .ok [[1, 2], [1, 3], [2, 3], [2, 4], [3, 4]] ∧
    TransitivePathBinSearch.computeResult
      (mkTransitivePath ⟨[[1, 2], [1, 3], [2, 3], [3, 4]], [], []⟩
        ⟨none, 0, .var 0, 0⟩ ⟨none, 1, .var 1, 0⟩ 1 2)
      = .ok [[1, 3], [1, 4], [1, 2], [2, 3], [2, 4], [3, 4]] ∧
    List.count [1, 4] [[1, 2], [1, 3], [2, 3], [2, 4], [3, 4]] = 0 ∧
    List.count [1, 4] [[1, 3], [1, 4], [1, 2], [2, 3], [2, 4], [3, 4]] = 1 := by
  refine ⟨?_, ?_, by decide, by decide⟩
  · simp [TransitivePathFallback.computeResult, TransitivePathFallback.transitiveHull,
      TransitivePathFallback.setupEdgesMap, TransitivePathFallback.successors,
      dfsGo, mkTransitivePath, decideDirection, unboundStartNodes, targetFilter,
      TransitivePath.fillTableWithHull, insertIntoMap, lookupMap, containsKey,
      column, cell, setCell, emptyRow, targetOk, hullSetOf, keysOf,
      TransitivePathSide.isVariable, TransitivePathSide.isBoundVariable,
      TransitivePath.isBoundOrId]
  · have hs : TransitivePathBinSearch.sortedEdgeList [[1, 2], [1, 3], [2, 3], [3, 4]] 0 1
        = [(1, 2), (1, 3), (2, 3), (3, 4)] := by
      rw [TransitivePathBinSearch.sortedEdgeList,
        show List.zip (column [[1, 2], [1, 3], [2, 3], [3, 4]] 0)
          (column [[1, 2], [1, 3], [2, 3], [3, 4]] 1) = [(1, 2), (1, 3), (2, 3), (3, 4)]
          from by simp [column, cell]]
      exact List.mergeSort_of_sorted (by decide)
    simp [TransitivePathBinSearch.computeResult, TransitivePathBinSearch.transitiveHull,
      TransitivePathBinSearch.successors, hs,
      dfsGo, mkTransitivePath, decideDirection, unboundStartNodes, targetFilter,
      TransitivePath.fillTableWithHull, insertIntoMap, lookupMap, containsKey,
      column, cell, setCell, emptyRow, targetOk, hullSetOf, keysOf,
      TransitivePathSide.isVariable, TransitivePathSide.isBoundVariable,
      TransitivePath.isBoundOrId]

/-! ## Paths avoiding a visited set: the classic DFS characterization -/

theorem RAn_start_not_mem {succ : Nat → List Nat} {M : List Nat} {c t n : Nat}
    (h : RAn succ M c t n) : c ∉ M := by
  cases h with
  | refl _ h => exact h
  | step h _ _ => exact h

theorem RAn_end_not_mem {succ : Nat → List Nat} {M : List Nat} {c t n : Nat}
    (h : RAn succ M c t n) : t ∉ M := by
  induction h with
  | refl _ h => exact h
  | step _ _ _ ih => exact ih

theorem RAn_anti {succ : Nat → List Nat} {M1 M2 : List Nat} (hsub : ∀ x ∈ M1, x ∈ M2)
    {c t n : Nat} (h : RAn succ M2 c t n) : RAn succ M1 c t n := by
  induction h with
  | refl c h => exact RAn.refl c (fun hc => h (hsub c hc))
  | step h hv _ ih => exact RAn.step (fun hc => h (hsub _ hc)) hv ih

theorem RAn_snoc {succ : Nat → List Nat} {M : List Nat} {c x w n : Nat}
    (h : RAn succ M c x n) (hw : w ∈ succ x) (hwm : w ∉ M) : RAn succ M c w (n + 1) := by
  induction h with
  | refl c hc => exact RAn.step hc hw (RAn.refl w hwm)
  | step hc hv _ ih => exact RAn.step hc hv (ih hw)

theorem RAn_reachN {succ : Nat → List Nat} {c t n : Nat} :
    RAn succ [] c t n ↔ ReachN succ c t n := by
  constructor
  · intro h
    induction h with
    | refl c _ => exact ReachN.refl c
    | step _ hv _ ih => exact ReachN.step hv ih
  · intro h
    induction h with
    | refl c => exact RAn.refl c (by simp)
    | step hv _ ih => exact RAn.step (by simp) hv ih

theorem RAn_escape_or_hit {succ : Nat → List Nat} {M : List Nat} {c : Nat} :
    ∀ n v t, RAn succ M v t n → v ≠ c →
      (RAn succ (c :: M) v t n ∨ t = c ∨
        ∃ w n', w ∈ succ c ∧ n' < n ∧ RAn succ M w t n') := by
  intro n v t h
  induction h with
  | refl v hv =>
    intro hne
    exact Or.inl (RAn.refl v (by simp [hv, hne]))
  | step hvm hw htail ih =>
    intro hne
    rename_i v' w' t' n'
    by_cases hwc : w' = c
    · subst hwc
      cases htail with
      | refl _ _ => exact Or.inr (Or.inl rfl)
      | step hcm hw2 htail2 =>
        rename_i w2 n2
        exact Or.inr (Or.inr ⟨w2, n2, hw2, by omega, htail2⟩)
    · rcases ih hwc with h' | h' | ⟨w2, n2, hw2, hn2, h2⟩
      · exact Or.inl (RAn.step (by simp [hvm, hne]) hw h')
      · exact Or.inr (Or.inl h')
      · exact Or.inr (Or.inr ⟨w2, n2, hw2, by omega, h2⟩)

theorem RAn_from_succ {succ : Nat → List Nat} {M : List Nat} {c : Nat} :
    ∀ n v t, v ∈ succ c → RAn succ M v t n →
      (t = c ∨ ∃ w m, w ∈ succ c ∧ RAn succ (c :: M) w t m) := by
  intro n
  induction n using Nat.strong_induction_on with
  | _ n ih =>
    intro v t hv hra
    by_cases hvc : v = c
    · subst hvc
      cases hra with
      | refl _ _ => exact Or.inl rfl
      | step hcm hw htail =>
        rename_i w n0
        exact ih n0 (by omega) w t hw htail
    · rcases RAn_escape_or_hit n v t hra hvc with h' | h' | ⟨w, n', hw, hn', h2⟩
      · exact Or.inr ⟨v, n, hv, h'⟩
      · exact Or.inl h'
      · exact ih n' hn' w t hw h2

theorem RAn_closure {succ : Nat → List Nat} {M : List Nat} {c : Nat} :
    ∀ n x t, (x = c ∨ ∃ v m, v ∈ succ c ∧ RAn succ (c :: M) v x m) →
      RAn succ M x t n →
      (t = c ∨ ∃ v m, v ∈ succ c ∧ RAn succ (c :: M) v t m) := by
  intro n
  induction n using Nat.strong_induction_on with
  | _ n ih =>
    intro x t hx hra
    rcases hx with rfl | ⟨v, m, hv, hvx⟩
    · cases hra with
      | refl _ _ => exact Or.inl rfl
      | step hcm hw htail =>
        rename_i w n0
        exact RAn_from_succ n0 w t hw htail
    · cases hra with
      | refl _ _ => exact Or.inr ⟨v, m, hv, hvx⟩
      | step hxm hw htail =>
        rename_i w n0
        by_cases hwc : w = c
        · subst hwc
          exact ih n0 (by omega) w t (Or.inl rfl) htail
        · have hwm : w ∉ M := RAn_start_not_mem htail
          have hsnoc : RAn succ (c :: M) v w (m + 1) :=
            RAn_snoc hvx hw (by simp [hwm, hwc])
          exact ih n0 (by omega) w t (Or.inr ⟨v, m + 1, hv, hsnoc⟩) htail

theorem RAn_to_assembled {succ : Nat → List Nat} {M N : List Nat} {c : Nat}
    (HN : ∀ x, x ∈ N ↔ (x ∈ c :: M ∨ ∃ v m, v ∈ succ c ∧ RAn succ (c :: M) v x m)) :
    ∀ n v t, RAn succ M v t n → (t ∈ N ∨ ∃ m, RAn succ N v t m) := by
  intro n
  induction n using Nat.strong_induction_on with
  | _ n ih =>
    intro v t hra
    by_cases hvN : v ∈ N
    · have hx : v = c ∨ ∃ v' m, v' ∈ succ c ∧ RAn succ (c :: M) v' v m := by
        rcases (HN v).mp hvN with hv | hv
        · rcases List.mem_cons.mp hv with rfl | hv'
          · exact Or.inl rfl
          · exact absurd hv' (RAn_start_not_mem hra)
        · exact Or.inr hv
      rcases RAn_closure n v t hx hra with h' | h'
      · exact Or.inl ((HN t).mpr (Or.inl (by simp [h'])))
      · exact Or.inl ((HN t).mpr (Or.inr h'))
    · cases hra with
      | refl _ _ => exact Or.inr ⟨0, RAn.refl v hvN⟩
      | step hvm hw htail =>
        rename_i w n0
        rcases ih n0 (by omega) w t htail with h' | ⟨m, h'⟩
        · exact Or.inl h'
        · exact Or.inr ⟨m + 1, RAn.step hvN hw h'⟩

theorem RAn_end_cases {succ : Nat → List Nat} {M : List Nat} {c t n : Nat}
    (h : RAn succ M c t n) : t = c ∨ ∃ v, t ∈ succ v := by
  induction h with
  | refl c _ => exact Or.inl rfl
  | step _ hv _ ih =>
    rcases ih with rfl | h'
    · exact Or.inr ⟨_, hv⟩
    · exact Or.inr h'

theorem length_le_of_nodup_subset {l u : List Nat} (hnd : l.Nodup)
    (hsub : ∀ x ∈ l, x ∈ u) : l.length ≤ u.length := by
  calc l.length = l.toFinset.card := (List.toFinset_card_of_nodup hnd).symm
    _ ≤ u.toFinset.card := Finset.card_le_card (fun x hx => by
        simpa using hsub x (by simpa using hx))
    _ ≤ u.length := List.toFinset_card_le u

theorem dfsGo_marks_char (succ : Nat → List Nat) (minD maxD : Nat) (target : Option Nat)
    (start : Nat) (U : List Nat)
    (hsuccU : ∀ n c, c ∈ succ n → c ∈ U)
    (hmax : U.length + 1 ≤ maxD) :
    ∀ cs depth st, minD ≤ depth →
      st.marks.Nodup → (∀ x ∈ st.marks, x ∈ U) → (∀ c ∈ cs, c ∈ U) →
      depth ≤ st.marks.length + 1 →
      ∀ t, t ∈ (dfsGo succ minD maxD target start cs depth st).marks ↔
        (t ∈ st.marks ∨ ∃ c n, c ∈ cs ∧ RAn succ st.marks c t n) := by
  intro cs depth st
  induction cs, depth, st using dfsGo.induct succ minD maxD target start with
  | case1 depth st =>
    intro _ _ _ _ _ t
    rw [dfsGo]
    simp
  | case2 c cs depth st h st1 ihInner ihInner' ihOuter =>
    intro hmind hnd hmU hcsU hdep t
    have hst1 : st1.marks = c :: st.marks := by
      simp only [st1, dif_pos hmind]
    have hst1nd : st1.marks.Nodup := by
      rw [hst1]
      exact List.nodup_cons.mpr ⟨h.2, hnd⟩
    have hst1U : ∀ x ∈ st1.marks, x ∈ U := by
      rw [hst1]
      intro x hx
      rcases List.mem_cons.mp hx with rfl | hx'
      · exact hcsU x (by simp)
      · exact hmU x hx'
    have HInner := ihInner (by omega) hst1nd hst1U (fun c' hc' => hsuccU c c' hc')
      (by rw [hst1]; simp; omega)
    rw [hst1] at HInner
    have hinnerNd : (dfsGo succ minD maxD target start (succ c) (depth + 1) st1).marks.Nodup :=
      dfsGo_marks_nodup succ minD maxD target start _ _ _ hst1nd
    have hinnerU : ∀ x ∈ (dfsGo succ minD maxD target start (succ c) (depth + 1) st1).marks,
        x ∈ U := by
      intro x hx
      rcases (HInner x).mp hx with hx' | ⟨v, n, hv, hra⟩
      · rcases List.mem_cons.mp hx' with rfl | hx''
        · exact hcsU x (by simp)
        · exact hmU x hx''
      · rcases RAn_end_cases hra with rfl | ⟨v', hv'⟩
        · exact hsuccU c x hv
        · exact hsuccU v' x hv'
    have hsuffix := dfsGo_marks_suffix succ minD maxD target start (succ c) (depth + 1) st1
    have hinnerLen : depth ≤
        (dfsGo succ minD maxD target start (succ c) (depth + 1) st1).marks.length + 1 := by
      have h1 := hsuffix.length_le
      rw [hst1] at h1
      simp at h1
      omega
    have HOuter := ihOuter hmind hinnerNd hinnerU (fun c' hc' => hcsU c' (by simp [hc']))
      hinnerLen
    rw [dfsGo, dif_pos h]
    have hsubM : ∀ x ∈ st.marks,
        x ∈ (dfsGo succ minD maxD target start (succ c) (depth + 1) st1).marks := by
      intro x hx
      exact (HInner x).mpr (Or.inl (by simp [hx]))
    constructor
    · intro hmem
      rcases (HOuter t).mp hmem with hin | ⟨c', n, hc', hra⟩
      · rcases (HInner t).mp hin with hin1 | ⟨v, n, hv, hra⟩
        · rcases List.mem_cons.mp hin1 with rfl | hin2
          · exact Or.inr ⟨t, 0, by simp, RAn.refl t h.2⟩
          · exact Or.inl hin2
        · refine Or.inr ⟨c, n + 1, by simp, ?_⟩
          exact RAn.step h.2 hv (RAn_anti (fun x hx => by simp [hx]) hra)
      · exact Or.inr ⟨c', n, by simp [hc'],
          RAn_anti (fun x hx => hsubM x hx) hra⟩
    · intro hyp
      rcases hyp with hm | ⟨c', n, hc', hra⟩
      · exact (HOuter t).mpr (Or.inl ((HInner t).mpr (Or.inl (by simp [hm]))))
      · rcases List.mem_cons.mp hc' with rfl | hc'tail
        · rcases RAn_closure n c' t (Or.inl rfl) hra with rfl | ⟨v, m, hv, hra'⟩
          · exact (HOuter t).mpr (Or.inl ((HInner t).mpr (Or.inl (by simp))))
          · exact (HOuter t).mpr (Or.inl ((HInner t).mpr (Or.inr ⟨v, m, hv, hra'⟩)))
        · rcases RAn_to_assembled (fun x => HInner x) n c' t hra with h' | ⟨m, h'⟩
          · exact (HOuter t).mpr (Or.inl h')
          · exact (HOuter t).mpr (Or.inr ⟨c', m, hc'tail, h'⟩)
  | case3 c cs depth st h ih =>
    intro hmind hnd hmU hcsU hdep t
    have hdmax : depth ≤ maxD := by
      have := length_le_of_nodup_subset hnd hmU
      omega
    have hcm : c ∈ st.marks := by
      by_contra hcm
      exact h ⟨hdmax, hcm⟩
    rw [dfsGo, dif_neg h]
    rw [ih hmind hnd hmU (fun c' hc' => hcsU c' (by simp [hc'])) hdep t]
    constructor
    · rintro (hm | ⟨c', n, hc', hra⟩)
      · exact Or.inl hm
      · exact Or.inr ⟨c', n, by simp [hc'], hra⟩
    · rintro (hm | ⟨c', n, hc', hra⟩)
      · exact Or.inl hm
      · rcases List.mem_cons.mp hc' with rfl | hc'tail
        · exact absurd hcm (RAn_start_not_mem hra)
        · exact Or.inr ⟨c', n, hc'tail, hra⟩

theorem dfsGo_hull_char (succ : Nat → List Nat) (minD maxD : Nat) (target : Option Nat)
    (start : Nat) :
    ∀ cs depth st, minD ≤ depth →
      ∀ k t, t ∈ hullSetOf (dfsGo succ minD maxD target start cs depth st).hull k ↔
        (t ∈ hullSetOf st.hull k ∨
          (k = start ∧ targetOk target t = true ∧
            t ∈ (dfsGo succ minD maxD target start cs depth st).marks ∧ t ∉ st.marks)) := by
  intro cs depth st
  induction cs, depth, st using dfsGo.induct succ minD maxD target start with
  | case1 depth st =>
    intro _ k t
    rw [dfsGo]
    simp
  | case2 c cs depth st h st1 ihInner ihInner' ihOuter =>
    intro hmind k t
    have hst1m : st1.marks = c :: st.marks := by
      simp only [st1, dif_pos hmind]
    have hst1hull : ∀ k t, t ∈ hullSetOf st1.hull k ↔
        (t ∈ hullSetOf st.hull k ∨ (k = start ∧ t = c ∧ targetOk target c = true)) := by
      intro k t
      by_cases htc : targetOk target c
      · simp only [st1, dif_pos hmind, dif_pos htc]
        rw [mem_hullSetOf_insertIntoMap]
        constructor
        · rintro (⟨rfl, rfl⟩ | hm) <;> [exact Or.inr ⟨rfl, rfl, htc⟩; exact Or.inl hm]
        · rintro (hm | ⟨rfl, rfl, _⟩) <;> [exact Or.inr hm; exact Or.inl ⟨rfl, rfl⟩]
      · simp only [st1, dif_pos hmind, dif_neg htc]
        constructor
        · exact fun hm => Or.inl hm
        · rintro (hm | ⟨_, _, htc'⟩) <;> [exact hm; exact absurd htc' htc]
    have HInner := ihInner (by omega)
    have HOuter := ihOuter hmind
    have hsub1 : ∀ x ∈ st.marks,
        x ∈ (dfsGo succ minD maxD target start (succ c) (depth + 1) st1).marks := by
      intro x hx
      exact (dfsGo_marks_suffix succ minD maxD target start _ _ _).sublist.subset
        (by simp [hst1m, hx])
    have hsub2 : ∀ x ∈ (dfsGo succ minD maxD target start (succ c) (depth + 1) st1).marks,
        x ∈ (dfsGo succ minD maxD target start cs depth
          (dfsGo succ minD maxD target start (succ c) (depth + 1) st1)).marks := by
      intro x hx
      exact (dfsGo_marks_suffix succ minD maxD target start _ _ _).sublist.subset hx
    rw [dfsGo, dif_pos h]
    constructor
    · intro hmem
      rcases (HOuter k t).mp hmem with hin | ⟨rfl, htk, hfin, hninner⟩
      · rcases (HInner k t).mp hin with hin1 | ⟨rfl, htk, hinner, hnst1⟩
        · rcases (hst1hull k t).mp hin1 with hm | ⟨rfl, htc2, htc⟩
          · exact Or.inl hm
          · refine Or.inr ⟨rfl, by rw [htc2]; exact htc, ?_, by rw [htc2]; exact h.2⟩
            refine hsub2 _ ?_
            exact (dfsGo_marks_suffix succ minD maxD target k _ _ _).sublist.subset
              (by simp [hst1m, htc2])
        · refine Or.inr ⟨rfl, htk, hsub2 _ hinner, ?_⟩
          intro hst
          exact hnst1 (by simp [hst1m, hst])
      · refine Or.inr ⟨rfl, htk, hfin, ?_⟩
        intro hst
        exact hninner (hsub1 _ hst)
    · rintro (hm | ⟨rfl, htk, hfin, hnm⟩)
      · exact (HOuter k t).mpr (Or.inl ((HInner k t).mpr
          (Or.inl ((hst1hull k t).mpr (Or.inl hm)))))
      · by_cases hinner : t ∈ (dfsGo succ minD maxD target k (succ c) (depth + 1) st1).marks
        · by_cases hst1 : t ∈ st1.marks
          · have htc : t = c := by
              rw [hst1m] at hst1
              rcases List.mem_cons.mp hst1 with rfl | hst
              · rfl
              · exact absurd hst hnm
            refine (HOuter k t).mpr (Or.inl ((HInner k t).mpr (Or.inl
              ((hst1hull k t).mpr (Or.inr ⟨rfl, htc, htc ▸ htk⟩)))))
          · exact (HOuter k t).mpr (Or.inl ((HInner k t).mpr
              (Or.inr ⟨rfl, htk, hinner, hst1⟩)))
        · exact (HOuter k t).mpr (Or.inr ⟨rfl, htk, hfin, hinner⟩)
  | case3 c cs depth st h ih =>
    intro hmind k t
    rw [dfsGo, dif_neg h]
    exact ih hmind k t

/-! ## Back-end equivalence: canonical reachability characterization -/

theorem reachN_iff_hasPath {succ : Nat → List Nat} {E : List (Nat × Nat)}
    (hiff : ∀ n c, c ∈ succ n ↔ (n, c) ∈ E) {s t d : Nat} :
    ReachN succ s t d ↔ HasPath E s t d := by
  constructor
  · exact ReachN_hasPath (fun n c hc => (hiff n c).mp hc)
  · intro h
    induction h with
    | refl s => exact ReachN.refl s
    | step hc htail ih => exact ReachN.step ((hiff _ _).mpr hc) ih

theorem hullSetOf_foldl_insert_preserve (l : List (Nat × Nat)) :
    ∀ (m0 : Map) (n t : Nat), t ∈ hullSetOf m0 n →
      t ∈ hullSetOf (l.foldl (fun m p => insertIntoMap m p.1 p.2) m0) n := by
  induction l with
  | nil => exact fun m0 n t h => h
  | cons p l ih =>
    intro m0 n t h
    rw [List.foldl_cons]
    exact ih _ n t ((mem_hullSetOf_insertIntoMap ..).mpr (Or.inr h))

theorem mem_foldl_insertIntoMap_of_mem {l : List (Nat × Nat)} {n t : Nat} (h : (n, t) ∈ l) :
    ∀ m0 : Map, t ∈ hullSetOf (l.foldl (fun m p => insertIntoMap m p.1 p.2) m0) n := by
  induction l with
  | nil => simp at h
  | cons p l ih =>
    intro m0
    rw [List.foldl_cons]
    rcases List.mem_cons.mp h with rfl | h'
    · exact hullSetOf_foldl_insert_preserve l _ n t
        ((mem_hullSetOf_insertIntoMap ..).mpr (Or.inl ⟨rfl, rfl⟩))
    · exact ih h' _

theorem successorsF_mem_iff {sub : List (List Nat)} {sc tc n c : Nat} :
    c ∈ TransitivePathFallback.successors (TransitivePathFallback.setupEdgesMap sub sc tc) n ↔
      (n, c) ∈ List.zip (column sub sc) (column sub tc) := by
  constructor
  · exact successorsF_mem
  · intro h
    exact mem_foldl_insertIntoMap_of_mem h []

theorem successorsB_rev_mem_iff {E : List (Nat × Nat)} {n c : Nat} :
    c ∈ (TransitivePathBinSearch.successors E n).reverse ↔ (n, c) ∈ E := by
  rw [List.mem_reverse]
  constructor
  · exact successorsB_mem
  · intro h
    simp only [TransitivePathBinSearch.successors, List.mem_map, List.mem_filter]
    exact ⟨(n, c), ⟨h, by simp⟩, rfl⟩

theorem reach1_iff {succ : Nat → List Nat} {s t : Nat} :
    (∃ c n, c ∈ succ s ∧ ReachN succ c t n) ↔ ∃ d, 1 ≤ d ∧ ReachN succ s t d := by
  constructor
  · rintro ⟨c, n, hc, hr⟩
    exact ⟨n + 1, by omega, ReachN.step hc hr⟩
  · rintro ⟨d, hd, hr⟩
    cases hr with
    | refl => omega
    | step hc htail => exact ⟨_, _, hc, htail⟩

theorem goodMap_hullSetOf_nodup {m : Map} (h : goodMap m) (k : Nat) :
    (hullSetOf m k).Nodup := by
  unfold hullSetOf
  cases hl : lookupMap m k with
  | none => simp
  | some vs =>
    simp only [Option.getD_some]
    exact (h.2 _ (mem_of_lookupMap_eq_some hl)).1

theorem dfsGo_root_unfold (succ : Nat → List Nat) (minD maxD : Nat) (target : Option Nat)
    (s : Nat) (h0 : Map) (hmin : 1 ≤ minD) :
    dfsGo succ minD maxD target s [s] 0 ⟨[], h0⟩
      = dfsGo succ minD maxD target s (succ s) 1 ⟨[], h0⟩ := by
  have hn : ¬ minD ≤ 0 := by omega
  have hg : (0 : Nat) ≤ maxD ∧ s ∉ ({ marks := [], hull := h0 } : SearchState).marks :=
    ⟨Nat.zero_le _, by simp⟩
  rw [dfsGo, dif_pos hg]
  simp only [if_neg hn]
  rw [dfsGo]

theorem hullFold1_char (succ : Nat → List Nat) (maxD : Nat) (target : Option Nat)
    (U : List Nat) (hsuccU : ∀ n c, c ∈ succ n → c ∈ U) (hmax : U.length + 1 ≤ maxD) :
    ∀ (ns done : List Nat) (acc : Map), goodMap acc →
      (∀ k t, t ∈ hullSetOf acc k ↔
        (k ∈ done ∧ targetOk target t = true ∧ ∃ d, 1 ≤ d ∧ ReachN succ k t d)) →
      ∀ k t,
        t ∈ hullSetOf (ns.foldl (fun hull s =>
          if containsKey hull s then hull
          else (dfsGo succ 1 maxD target s (succ s) 1 ⟨[], hull⟩).hull) acc) k ↔
        ((k ∈ done ∨ k ∈ ns) ∧ targetOk target t = true ∧
          ∃ d, 1 ≤ d ∧ ReachN succ k t d) := by
  intro ns
  induction ns with
  | nil =>
    intro done acc hg hch k t
    rw [List.foldl_nil, hch k t]
    simp
  | cons s ns ih =>
    intro done acc hg hch k t
    rw [List.foldl_cons]
    by_cases hc : containsKey acc s
    · rw [if_pos hc]
      have hsdone : s ∈ done := by
        obtain ⟨vs, hvs⟩ := Option.isSome_iff_exists.mp (by simpa [containsKey] using hc)
        have hmem := mem_of_lookupMap_eq_some hvs
        have hne := (hg.2 _ hmem).2
        obtain ⟨t0, ht0⟩ := List.exists_mem_of_ne_nil _ hne
        have : t0 ∈ hullSetOf acc s := by simp [hullSetOf, hvs, ht0]
        exact ((hch s t0).mp this).1
      rw [ih done acc hg hch k t]
      constructor
      · rintro ⟨hk, h2⟩
        refine ⟨?_, h2⟩
        rcases hk with hk | hk
        · exact Or.inl hk
        · exact Or.inr (by simp [hk])
      · rintro ⟨hk, h2⟩
        refine ⟨?_, h2⟩
        rcases hk with hk | hk
        · exact Or.inl hk
        · rcases List.mem_cons.mp hk with rfl | hk'
          · exact Or.inl hsdone
          · exact Or.inr hk'
    · rw [if_neg hc]
      have hg' : goodMap (dfsGo succ 1 maxD target s (succ s) 1 ⟨[], acc⟩).hull :=
        dfsGo_hull_goodMap succ 1 maxD target s _ _ _ hg
      have hmarks := dfsGo_marks_char succ 1 maxD target s U hsuccU hmax (succ s) 1 ⟨[], acc⟩
        (le_refl 1) (by simp) (by simp) (fun c hcs => hsuccU s c hcs) (by simp)
      have hhull := dfsGo_hull_char succ 1 maxD target s (succ s) 1 ⟨[], acc⟩ (le_refl 1)
      have hch' : ∀ k t,
          t ∈ hullSetOf (dfsGo succ 1 maxD target s (succ s) 1 ⟨[], acc⟩).hull k ↔
          ((k ∈ done ++ [s]) ∧ targetOk target t = true ∧
            ∃ d, 1 ≤ d ∧ ReachN succ k t d) := by
      -- old accumulator entries keep their characterization; the new key is s
        intro k' t'
        rw [hhull k' t', hch k' t']
        constructor
        · rintro (⟨hk, h2⟩ | ⟨rfl, htk, hm, _⟩)
          · exact ⟨by simp [hk], h2⟩
          · have hreach := (hmarks t').mp hm
            simp only [List.not_mem_nil, false_or] at hreach
            obtain ⟨c, n, hcs, hra⟩ := hreach
            exact ⟨by simp, htk, reach1_iff.mp ⟨c, n, hcs, RAn_reachN.mp hra⟩⟩
        · rintro ⟨hk, htk, d, hd, hr⟩
          rcases List.mem_append.mp hk with hk' | hk'
          · exact Or.inl ⟨hk', htk, d, hd, hr⟩
          · have hks : k' = s := by simpa using hk'
            subst hks
            obtain ⟨c, n, hcs, hrn⟩ := reach1_iff.mpr ⟨d, hd, hr⟩
            refine Or.inr ⟨rfl, htk, ?_, by simp⟩
            exact (hmarks t').mpr (Or.inr ⟨c, n, hcs, RAn_reachN.mpr hrn⟩)
      rw [ih (done ++ [s]) _ hg' hch' k t]
      constructor
      · rintro ⟨hk, h2⟩
        refine ⟨?_, h2⟩
        rcases hk with hk | hk
        · rcases List.mem_append.mp hk with hk' | hk'
          · exact Or.inl hk'
          · exact Or.inr (by simp [show k = s by simpa using hk'])
        · exact Or.inr (by simp [hk])
      · rintro ⟨hk, h2⟩
        refine ⟨?_, h2⟩
        rcases hk with hk | hk
        · exact Or.inl (by simp [hk])
        · rcases List.mem_cons.mp hk with rfl | hk'
          · exact Or.inl (by simp)
          · exact Or.inr hk'

theorem transitiveHullF_char (edges : Map) (maxD : Nat) (ns : List Nat) (target : Option Nat)
    (U : List Nat)
    (hsuccU : ∀ n c, c ∈ TransitivePathFallback.successors edges n → c ∈ U)
    (hmax : U.length + 1 ≤ maxD) (k t : Nat) :
    t ∈ hullSetOf (TransitivePathFallback.transitiveHull edges 1 maxD ns target) k ↔
      (k ∈ ns ∧ targetOk target t = true ∧
        ∃ d, 1 ≤ d ∧ ReachN (TransitivePathFallback.successors edges) k t d) := by
  have heq : TransitivePathFallback.transitiveHull edges 1 maxD ns target
      = ns.foldl (fun hull s =>
          if containsKey hull s then hull
          else (dfsGo (TransitivePathFallback.successors edges) 1 maxD target s
            (TransitivePathFallback.successors edges s) 1 ⟨[], hull⟩).hull) [] := by
    rw [TransitivePathFallback.transitiveHull]
    apply List.foldl_ext
    intro hull s _
    simp
  rw [heq, hullFold1_char (TransitivePathFallback.successors edges) maxD target U hsuccU hmax
    ns [] [] (by simp [goodMap, keysOf]) (by intro k t; simp [hullSetOf, lookupMap]) k t]
  simp

theorem transitiveHullB_char (E : List (Nat × Nat)) (maxD : Nat) (ns : List Nat)
    (target : Option Nat) (U : List Nat)
    (hsuccU : ∀ n c, c ∈ (TransitivePathBinSearch.successors E n).reverse → c ∈ U)
    (hmax : U.length + 1 ≤ maxD) (k t : Nat) :
    t ∈ hullSetOf (TransitivePathBinSearch.transitiveHull E 1 maxD ns target) k ↔
      (k ∈ ns ∧ targetOk target t = true ∧
        ∃ d, 1 ≤ d ∧ ReachN (fun n => (TransitivePathBinSearch.successors E n).reverse) k t d) := by
  have heq : TransitivePathBinSearch.transitiveHull E 1 maxD ns target
      = ns.foldl (fun hull s =>
          if containsKey hull s then hull
          else (dfsGo (fun n => (TransitivePathBinSearch.successors E n).reverse) 1 maxD target s
            ((TransitivePathBinSearch.successors E s).reverse) 1 ⟨[], hull⟩).hull) [] := by
    rw [TransitivePathBinSearch.transitiveHull]
    apply List.foldl_ext
    intro hull s _
    have hpre : ¬((1 : Nat) = 0 ∧ targetOk target s = true) := by simp
    simp only [if_neg hpre]
    rw [dfsGo_root_unfold (fun n => (TransitivePathBinSearch.successors E n).reverse)
      1 maxD target s hull (le_refl 1)]
  rw [heq, hullFold1_char (fun n => (TransitivePathBinSearch.successors E n).reverse) maxD target
    U hsuccU hmax ns [] [] (by simp [goodMap, keysOf]) (by intro k t; simp [hullSetOf, lookupMap])
    k t]
  simp

theorem hullPairs_mem_iff {m : Map} (hg : goodMap m) (k t : Nat) :
    (k, t) ∈ m.flatMap (fun kv => kv.2.map (fun v => (kv.1, v))) ↔ t ∈ hullSetOf m k := by
  simp only [List.mem_flatMap, List.mem_map]
  constructor
  · rintro ⟨kv, hkv, v, hv, heq⟩
    obtain ⟨h1, h2⟩ := Prod.mk.injEq .. ▸ heq
    have hl : lookupMap m k = some kv.2 :=
      lookupMap_eq_some_of_mem hg.1 (show (k, kv.2) ∈ m from h1 ▸ hkv)
    rw [hullSetOf, hl]
    exact h2 ▸ hv
  · intro ht
    cases hl : lookupMap m k with
    | none => rw [hullSetOf, hl] at ht; simp at ht
    | some vs =>
      rw [hullSetOf, hl] at ht
      exact ⟨(k, vs), mem_of_lookupMap_eq_some hl, t, by simpa using ht, rfl⟩

theorem hullPairs_nodup {m : Map} (hg : goodMap m) :
    (m.flatMap (fun kv => kv.2.map (fun v => (kv.1, v)))).Nodup := by
  rw [List.nodup_flatMap]
  constructor
  · intro kv hkv
    refine ((hg.2 kv hkv).1).map ?_
    intro v v' h
    exact (Prod.mk.injEq .. ▸ h).2
  · have hpw : m.Pairwise (fun a b => a.1 ≠ b.1) := by
      have h := hg.1
      rw [keysOf] at h
      exact List.pairwise_map.mp h
    refine hpw.imp ?_
    intro a b hab p hpa hpb
    obtain ⟨v, hv, hpv⟩ := List.mem_map.mp hpa
    obtain ⟨v', hv', hpv'⟩ := List.mem_map.mp hpb
    exact hab (Prod.mk.injEq .. ▸ (hpv.trans hpv'.symm)).1

theorem fillTableWithHull_eq_map_pairs (hull : Map) (sc tc w : Nat) :
    TransitivePath.fillTableWithHull hull sc tc w
      = (hull.flatMap (fun kv => kv.2.map (fun v => (kv.1, v)))).map
          (fun p => setCell (setCell (emptyRow w) sc p.1) tc p.2) := by
  simp only [TransitivePath.fillTableWithHull, List.map_flatMap, List.map_map]
  rfl

theorem fillTableWithHull_perm (h1 h2 : Map) (hg1 : goodMap h1) (hg2 : goodMap h2)
    (hmem : ∀ k t, t ∈ hullSetOf h1 k ↔ t ∈ hullSetOf h2 k) (sc tc w : Nat) :
    (TransitivePath.fillTableWithHull h1 sc tc w).Perm
      (TransitivePath.fillTableWithHull h2 sc tc w) := by
  rw [fillTableWithHull_eq_map_pairs, fillTableWithHull_eq_map_pairs]
  refine List.Perm.map _ ?_
  rw [List.perm_ext_iff_of_nodup (hullPairs_nodup hg1) (hullPairs_nodup hg2)]
  rintro ⟨k, t⟩
  rw [hullPairs_mem_iff hg1, hullPairs_mem_iff hg2]
  exact hmem k t

theorem fillTableWithHullBound_cons (hull : Map) (node : Nat) (nodes : List Nat)
    (sc tc : Nat) (srow : List Nat) (srows : List (List Nat)) (skip w : Nat) :
    TransitivePath.fillTableWithHullBound hull (node :: nodes) sc tc (srow :: srows) skip w
      = (hullSetOf hull node).map (fun t => TransitivePath.copyColumns srow
          (setCell (setCell (emptyRow w) sc node) tc t) skip)
        ++ TransitivePath.fillTableWithHullBound hull nodes sc tc srows skip w := by
  rw [TransitivePath.fillTableWithHullBound]
  cases hl : lookupMap hull node <;> simp [hullSetOf, hl]

theorem fillTableWithHullBound_perm (h1 h2 : Map) (hg1 : goodMap h1) (hg2 : goodMap h2)
    (hmem : ∀ k t, t ∈ hullSetOf h1 k ↔ t ∈ hullSetOf h2 k) (nodes : List Nat)
    (sc tc : Nat) (table : List (List Nat)) (skip w : Nat) :
    (TransitivePath.fillTableWithHullBound h1 nodes sc tc table skip w).Perm
      (TransitivePath.fillTableWithHullBound h2 nodes sc tc table skip w) := by
  induction nodes generalizing table with
  | nil =>
    rw [TransitivePath.fillTableWithHullBound.eq_def,
      TransitivePath.fillTableWithHullBound.eq_def]
  | cons node nodes ih =>
    cases table with
    | nil =>
      rw [TransitivePath.fillTableWithHullBound.eq_def,
        TransitivePath.fillTableWithHullBound.eq_def]
    | cons srow srows =>
      rw [fillTableWithHullBound_cons, fillTableWithHullBound_cons]
      refine List.Perm.append (List.Perm.map _ ?_) (ih srows)
      exact (List.perm_ext_iff_of_nodup (goodMap_hullSetOf_nodup hg1 node)
        (goodMap_hullSetOf_nodup hg2 node)).mpr (fun t => hmem node t)

/-- C3 (amended): for `minDist = 1` and a `maxDist` of at least the size of
the node universe plus one (so the depth guard never truncates the search —
in particular for the saturated `maxDist` of the `+` operator), the HashMap
(fallback) back-end and the BinSearch back-end succeed on the same operator
with output row lists that are permutations of each other: identical
multisets of output rows.  (For intermediate `maxDist` values the back-ends
can differ, see `C3_counterexample`.) -/
theorem C3_backends_equivalent (op : TransitivePath)
    (hmin : op.minDist = 1) (hbig : bigEnough op) :
    ∃ rows1 rows2, TransitivePathFallback.computeResult op = Except.ok rows1 ∧
      TransitivePathBinSearch.computeResult op = Except.ok rows2 ∧ rows1.Perm rows2 := by
  have hFiff : ∀ n c,
      c ∈ TransitivePathFallback.successors
        (TransitivePathFallback.setupEdgesMap op.subtree.rows
          (decideDirection op).1.subCol (decideDirection op).2.subCol) n ↔
      (n, c) ∈ decidedEdges op := by
    intro n c
    rw [decidedEdges]
    exact successorsF_mem_iff
  have hBiff : ∀ n c,
      c ∈ (TransitivePathBinSearch.successors
        (TransitivePathBinSearch.sortedEdgeList op.subtree.rows
          (decideDirection op).1.subCol (decideDirection op).2.subCol) n).reverse ↔
      (n, c) ∈ decidedEdges op := by
    intro n c
    rw [decidedEdges]
    exact successorsB_rev_mem_iff.trans mem_sortedEdgeList
  have hReach : ∀ k t d,
      ReachN (TransitivePathFallback.successors
        (TransitivePathFallback.setupEdgesMap op.subtree.rows
          (decideDirection op).1.subCol (decideDirection op).2.subCol)) k t d ↔
      ReachN (fun n => (TransitivePathBinSearch.successors
        (TransitivePathBinSearch.sortedEdgeList op.subtree.rows
          (decideDirection op).1.subCol (decideDirection op).2.subCol) n).reverse) k t d := by
    intro k t d
    rw [reachN_iff_hasPath hFiff, reachN_iff_hasPath hBiff]
  have hUF : ∀ n c,
      c ∈ TransitivePathFallback.successors
        (TransitivePathFallback.setupEdgesMap op.subtree.rows
          (decideDirection op).1.subCol (decideDirection op).2.subCol) n →
      c ∈ nodeUniverse (decidedNodes op) (decidedEdges op) := by
    intro n c hc
    rw [nodeUniverse, List.mem_dedup]
    exact List.mem_append_right _ (List.mem_map_of_mem _ ((hFiff n c).mp hc))
  have hUB : ∀ n c,
      c ∈ (TransitivePathBinSearch.successors
        (TransitivePathBinSearch.sortedEdgeList op.subtree.rows
          (decideDirection op).1.subCol (decideDirection op).2.subCol) n).reverse →
      c ∈ nodeUniverse (decidedNodes op) (decidedEdges op) := by
    intro n c hc
    rw [nodeUniverse, List.mem_dedup]
    exact List.mem_append_right _ (List.mem_map_of_mem _ ((hBiff n c).mp hc))
  have hmax : (nodeUniverse (decidedNodes op) (decidedEdges op)).length + 1 ≤ op.maxDist :=
    hbig
  have hmemAll : ∀ nodes : List Nat, ∀ k t,
      t ∈ hullSetOf (TransitivePathFallback.transitiveHull
        (TransitivePathFallback.setupEdgesMap op.subtree.rows
          (decideDirection op).1.subCol (decideDirection op).2.subCol)
        1 op.maxDist nodes (targetFilter (decideDirection op).2)) k ↔
      t ∈ hullSetOf (TransitivePathBinSearch.transitiveHull
        (TransitivePathBinSearch.sortedEdgeList op.subtree.rows
          (decideDirection op).1.subCol (decideDirection op).2.subCol)
        1 op.maxDist nodes (targetFilter (decideDirection op).2)) k := by
    intro nodes k t
    rw [transitiveHullF_char _ op.maxDist nodes _ _ hUF hmax k t,
      transitiveHullB_char _ op.maxDist nodes _ _ hUB hmax k t]
    constructor
    · rintro ⟨h1, h2, d, hd, hr⟩
      exact ⟨h1, h2, d, hd, (hReach k t d).mp hr⟩
    · rintro ⟨h1, h2, d, hd, hr⟩
      exact ⟨h1, h2, d, hd, (hReach k t d).mpr hr⟩
  rcases htc : (decideDirection op).1.treeAndCol with _ | ⟨tree, col⟩
  · have hF : TransitivePathFallback.computeResult op = Except.ok
        (TransitivePath.fillTableWithHull
          (TransitivePathFallback.transitiveHull
            (TransitivePathFallback.setupEdgesMap op.subtree.rows
              (decideDirection op).1.subCol (decideDirection op).2.subCol)
            1 op.maxDist
            (unboundStartNodes op.subtree.rows (decideDirection op).1 (decideDirection op).2 1)
            (targetFilter (decideDirection op).2))
          (decideDirection op).1.outputCol (decideDirection op).2.outputCol
          op.resultWidth) := by
      simp [TransitivePathFallback.computeResult, hmin, htc]
    have hB : TransitivePathBinSearch.computeResult op = Except.ok
        (TransitivePath.fillTableWithHull
          (TransitivePathBinSearch.transitiveHull
            (TransitivePathBinSearch.sortedEdgeList op.subtree.rows
              (decideDirection op).1.subCol (decideDirection op).2.subCol)
            1 op.maxDist
            (unboundStartNodes op.subtree.rows (decideDirection op).1 (decideDirection op).2 1)
            (targetFilter (decideDirection op).2))
          (decideDirection op).1.outputCol (decideDirection op).2.outputCol
          op.resultWidth) := by
      simp [TransitivePathBinSearch.computeResult, hmin, htc]
    refine ⟨_, _, hF, hB, ?_⟩
    exact fillTableWithHull_perm _ _ (transitiveHullF_goodMap ..) (transitiveHullB_goodMap ..)
      (hmemAll _) _ _ _
  · have hF : TransitivePathFallback.computeResult op = Except.ok
        (TransitivePath.fillTableWithHullBound
          (TransitivePathFallback.transitiveHull
            (TransitivePathFallback.setupEdgesMap op.subtree.rows
              (decideDirection op).1.subCol (decideDirection op).2.subCol)
            1 op.maxDist (column tree.rows col) (targetFilter (decideDirection op).2))
          (column tree.rows col)
          (decideDirection op).1.outputCol (decideDirection op).2.outputCol
          tree.rows col op.resultWidth) := by
      simp [TransitivePathFallback.computeResult, hmin, htc]
    have hB : TransitivePathBinSearch.computeResult op = Except.ok
        (TransitivePath.fillTableWithHullBound
          (TransitivePathBinSearch.transitiveHull
            (TransitivePathBinSearch.sortedEdgeList op.subtree.rows
              (decideDirection op).1.subCol (decideDirection op).2.subCol)
            1 op.maxDist (column tree.rows col) (targetFilter (decideDirection op).2))
          (column tree.rows col)
          (decideDirection op).1.outputCol (decideDirection op).2.outputCol
          tree.rows col op.resultWidth) := by
      simp [TransitivePathBinSearch.computeResult, hmin, htc]
    refine ⟨_, _, hF, hB, ?_⟩
    exact fillTableWithHullBound_perm _ _ (transitiveHullF_goodMap ..)
      (transitiveHullB_goodMap ..) (hmemAll _) _ _ _ _ _ _

theorem C3_witness :
    (mkTransitivePath ⟨[[1, 2], [2, 3]], [], []⟩ ⟨none, 0, .var 0, 0⟩ ⟨none, 1, .var 1, 0⟩
        1 10).minDist = 1 ∧
    bigEnough (mkTransitivePath ⟨[[1, 2], [2, 3]], [], []⟩ ⟨none, 0, .var 0, 0⟩
        ⟨none, 1, .var 1, 0⟩ 1 10) ∧
    ∃ rows1 rows2,
      TransitivePathFallback.computeResult (mkTransitivePath ⟨[[1, 2], [2, 3]], [], []⟩
        ⟨none, 0, .var 0, 0⟩ ⟨none, 1, .var 1, 0⟩ 1 10) = Except.ok rows1 ∧
      TransitivePathBinSearch.computeResult (mkTransitivePath ⟨[[1, 2], [2, 3]], [], []⟩
        ⟨none, 0, .var 0, 0⟩ ⟨none, 1, .var 1, 0⟩ 1 10) = Except.ok rows2 ∧
      rows1.Perm rows2 :=
  ⟨rfl, by decide, C3_backends_equivalent _ rfl (by decide)⟩
